import Mathlib

/-!
Verification of the Eigen (BRAINSia fork, early development snapshot)
expression-evaluation and assignment-strategy engine, as described in the
repository specification.

The development shallowly embeds:
* the compile-time traversal/unrolling classifier
  (`internal::copy_using_evaluator_traits`, src/Eigen/src/Core/AssignEvaluator.h);
* the assignment executors (`copy_using_evaluator_impl`, same file),
  modelled over a flat destination buffer;
* the matrix-product coefficient paths (`Product::_coeff`,
  `ei_product_unroller`, `Product::_cacheOptimalEval`, src/Eigen/src/Core/Product.h);
* the parallel decomposition helpers (`ei_run_parallel_1d`, `ei_run_parallel_2d`,
  src/Eigen/src/Core/products/Parallelizer.h);
* the `Reverse` expression (src/Eigen/src/Array/Reverse.h) and the `Sum`
  expression (src/Eigen/Core/Sum.h).

Compile-time integers use `Option Nat`, with `none` standing for the
`Dynamic` sentinel (`const int Dynamic = -10` in src/Eigen/src/Core/Util.h);
capability bits (AlignedBit, DirectAccessBit, ActualPacketAccessBit,
LinearAccessBit, RowMajorBit) become Boolean fields of a descriptor record.
-/

namespace Eigen

/-- The traversal kinds of the assignment classifier
(`DefaultTraversal`, ..., in Eigen constants). -/
inductive Traversal where
  | DefaultTraversal
  | LinearTraversal
  | InnerVectorizedTraversal
  | LinearVectorizedTraversal
  | SliceVectorizedTraversal
deriving DecidableEq, Repr

/-- The unrolling kinds of the assignment classifier. -/
inductive Unrolling where
  | NoUnrolling
  | InnerUnrolling
  | CompleteUnrolling
deriving DecidableEq, Repr

/-- A compile-time integer quantity: `none` models Eigen's `Dynamic` sentinel. -/
abbrev CompileTimeSize := Option Nat

/-- The compile-time descriptor of an expression type, as read by
`copy_using_evaluator_traits` (AssignEvaluator.h, lines 41-144): the
compile-time shape and the capability bits probed from `Flags`. -/
structure XprDesc where
  rowsAtCompileTime : CompileTimeSize
  colsAtCompileTime : CompileTimeSize
  maxRowsAtCompileTime : CompileTimeSize
  maxColsAtCompileTime : CompileTimeSize
  /-- `Flags & RowMajorBit` -/
  isRowMajor : Bool
  /-- `Flags & AlignedBit` -/
  alignedBit : Bool
  /-- `Flags & DirectAccessBit` -/
  directAccessBit : Bool
  /-- `Flags & ActualPacketAccessBit` -/
  actualPacketAccessBit : Bool
  /-- `Flags & LinearAccessBit` -/
  linearAccessBit : Bool
  /-- `CoeffReadCost` of the expression type -/
  coeffReadCost : CompileTimeSize
deriving DecidableEq, Repr

/-- `IsVectorAtCompileTime`: one of the compile-time dimensions is 1. -/
def XprDesc.isVectorAtCompileTime (d : XprDesc) : Bool :=
  d.rowsAtCompileTime == some 1 || d.colsAtCompileTime == some 1

/-- `SizeAtCompileTime`: the product of the dimensions, `Dynamic` if either is. -/
def XprDesc.sizeAtCompileTime (d : XprDesc) : CompileTimeSize :=
  match d.rowsAtCompileTime, d.colsAtCompileTime with
  | some r, some c => some (r * c)
  | _, _ => none

/-- `MaxSizeAtCompileTime`. -/
def XprDesc.maxSizeAtCompileTime (d : XprDesc) : CompileTimeSize :=
  match d.maxRowsAtCompileTime, d.maxColsAtCompileTime with
  | some r, some c => some (r * c)
  | _, _ => none

/-- `EIGEN_UNROLLING_LIMIT` (src/Eigen/src/Core/Util.h line 36): 16. -/
def EIGEN_UNROLLING_LIMIT : Nat := 16

namespace copy_using_evaluator_traits

/-- `InnerSize` (AssignEvaluator.h lines 54-56): the size for a vector,
else the column count for a row-major type, else the row count. -/
def InnerSize (dst : XprDesc) : CompileTimeSize :=
  if dst.isVectorAtCompileTime then dst.sizeAtCompileTime
  else if dst.isRowMajor then dst.colsAtCompileTime
  else dst.rowsAtCompileTime

/-- `InnerMaxSize` (AssignEvaluator.h lines 57-59). -/
def InnerMaxSize (dst : XprDesc) : CompileTimeSize :=
  if dst.isVectorAtCompileTime then dst.maxSizeAtCompileTime
  else if dst.isRowMajor then dst.maxColsAtCompileTime
  else dst.maxRowsAtCompileTime

/-- `StorageOrdersAgree` (line 65). -/
def StorageOrdersAgree (dst src : XprDesc) : Bool :=
  dst.isRowMajor == src.isRowMajor

/-- `MightVectorize` (lines 66-67): orders agree and both flag
`ActualPacketAccessBit`. -/
def MightVectorize (dst src : XprDesc) : Bool :=
  StorageOrdersAgree dst src && (dst.actualPacketAccessBit && src.actualPacketAccessBit)

/-- `MayInnerVectorize` (lines 68-69): `MightVectorize` and the inner size is
statically known, divisible by the packet size, and both sides are aligned. -/
def MayInnerVectorize (packetSize : Nat) (dst src : XprDesc) : Bool :=
  MightVectorize dst src
    && (match InnerSize dst with
        | none => false
        | some n => n % packetSize == 0)
    && dst.alignedBit && src.alignedBit

/-- `MayLinearize` (line 70). -/
def MayLinearize (dst src : XprDesc) : Bool :=
  StorageOrdersAgree dst src && (dst.linearAccessBit && src.linearAccessBit)

/-- `MayLinearVectorize` (lines 71-72).  The source compares the enum member
`MaxSizeAtCompileTime`, which is defined at line 60 as
`Derived::SizeAtCompileTime`, against `Dynamic`. -/
def MayLinearVectorize (dst src : XprDesc) : Bool :=
  MightVectorize dst src && MayLinearize dst src && dst.directAccessBit
    && (dst.alignedBit || dst.sizeAtCompileTime == none)

/-- `MaySliceVectorize` (lines 75-76): `MightVectorize`, destination direct
access, and the inner max size dynamic or at least `3*PacketSize`. -/
def MaySliceVectorize (packetSize : Nat) (dst src : XprDesc) : Bool :=
  MightVectorize dst src && dst.directAccessBit
    && (match InnerMaxSize dst with
        | none => true
        | some n => 3 * packetSize ≤ n)

/-- `Traversal` (lines 84-88): the priority chain of the classifier. -/
def Traversal_choice (packetSize : Nat) (dst src : XprDesc) : Traversal :=
  if MayInnerVectorize packetSize dst src then .InnerVectorizedTraversal
  else if MayLinearVectorize dst src then .LinearVectorizedTraversal
  else if MaySliceVectorize packetSize dst src then .SliceVectorizedTraversal
  else if MayLinearize dst src then .LinearTraversal
  else .DefaultTraversal

/-- `Vectorized` (lines 89-91). -/
def Vectorized (packetSize : Nat) (dst src : XprDesc) : Bool :=
  Traversal_choice packetSize dst src == .InnerVectorizedTraversal
    || Traversal_choice packetSize dst src == .LinearVectorizedTraversal
    || Traversal_choice packetSize dst src == .SliceVectorizedTraversal

/-- `UnrollingLimit` (line 96). -/
def UnrollingLimit (packetSize : Nat) (dst src : XprDesc) : Nat :=
  EIGEN_UNROLLING_LIMIT * (if Vectorized packetSize dst src then packetSize else 1)

/-- `MayUnrollCompletely` (lines 97-99). -/
def MayUnrollCompletely (packetSize : Nat) (dst src : XprDesc) : Bool :=
  match dst.sizeAtCompileTime, src.coeffReadCost with
  | some sz, some cost => decide (sz * cost ≤ UnrollingLimit packetSize dst src)
  | _, _ => false

/-- `MayUnrollInner` (lines 100-102). -/
def MayUnrollInner (packetSize : Nat) (dst src : XprDesc) : Bool :=
  match InnerSize dst, src.coeffReadCost with
  | some n, some cost => decide (n * cost ≤ UnrollingLimit packetSize dst src)
  | _, _ => false

/-- `Unrolling` (lines 106-120): the final unrolling choice by traversal. -/
def Unrolling_choice (packetSize : Nat) (dst src : XprDesc) : Unrolling :=
  match Traversal_choice packetSize dst src with
  | .InnerVectorizedTraversal | .DefaultTraversal =>
      if MayUnrollCompletely packetSize dst src then .CompleteUnrolling
      else if MayUnrollInner packetSize dst src then .InnerUnrolling
      else .NoUnrolling
  | .LinearVectorizedTraversal =>
      if MayUnrollCompletely packetSize dst src && dst.alignedBit then .CompleteUnrolling
      else .NoUnrolling
  | .LinearTraversal =>
      if MayUnrollCompletely packetSize dst src then .CompleteUnrolling
      else .NoUnrolling
  | .SliceVectorizedTraversal => .NoUnrolling

end copy_using_evaluator_traits

/-! Specification-side restatements of the classifier, written from the
words of the specification (section 4.2), to be compared with the
source-derived definitions above. -/

open copy_using_evaluator_traits in
/-- Spec-side traversal selection, transcribed from the specification text:
InnerVectorized if storage orders agree, both sides advertise packet access,
the inner size is statically known and divisible by the packet width, and both
operands are statically aligned; else LinearVectorized if vectorization and
linearization both apply, the destination has direct access and is statically
aligned or dynamically sized; else SliceVectorized if vectorization applies,
the destination has direct access, and the inner max size is dynamic or at
least three packet widths; else Linear if storage orders agree and both sides
advertise linear access; else Default. -/
def spec_traversal (packetSize : Nat) (dst src : XprDesc) : Traversal :=
  if (dst.isRowMajor == src.isRowMajor)
      && dst.actualPacketAccessBit && src.actualPacketAccessBit
      && (InnerSize dst).isSome && ((InnerSize dst).getD 0 % packetSize == 0)
      && dst.alignedBit && src.alignedBit then
    .InnerVectorizedTraversal
  else if ((dst.isRowMajor == src.isRowMajor)
        && dst.actualPacketAccessBit && src.actualPacketAccessBit)
      && ((dst.isRowMajor == src.isRowMajor)
        && dst.linearAccessBit && src.linearAccessBit)
      && dst.directAccessBit
      && (dst.alignedBit || (dst.sizeAtCompileTime).isNone) then
    .LinearVectorizedTraversal
  else if (dst.isRowMajor == src.isRowMajor)
      && dst.actualPacketAccessBit && src.actualPacketAccessBit
      && dst.directAccessBit
      && ((InnerMaxSize dst).isNone || decide (3 * packetSize ≤ (InnerMaxSize dst).getD 0)) then
    .SliceVectorizedTraversal
  else if (dst.isRowMajor == src.isRowMajor)
      && dst.linearAccessBit && src.linearAccessBit then
    .LinearTraversal
  else
    .DefaultTraversal

open copy_using_evaluator_traits in
/-- Spec-side unrolling selection, transcribed from the specification text:
the limit is the fixed constant 16 multiplied by the packet width when the
selected traversal is vectorized; the complete-unroll test is that the
destination total size and the source per-element read cost are statically
known with product within the limit; the inner test restricts to the inner
size; the choice then depends on the selected traversal. -/
def spec_unrolling (packetSize : Nat) (dst src : XprDesc) : Unrolling :=
  let t := spec_traversal packetSize dst src
  let vec : Bool := t == .InnerVectorizedTraversal || t == .LinearVectorizedTraversal
      || t == .SliceVectorizedTraversal
  let limit : Nat := 16 * (if vec then packetSize else 1)
  let completeOk : Bool :=
    (dst.sizeAtCompileTime).isSome && (src.coeffReadCost).isSome
      && decide ((dst.sizeAtCompileTime).getD 0 * (src.coeffReadCost).getD 0 ≤ limit)
  let innerOk : Bool :=
    (InnerSize dst).isSome && (src.coeffReadCost).isSome
      && decide ((InnerSize dst).getD 0 * (src.coeffReadCost).getD 0 ≤ limit)
  match t with
  | .DefaultTraversal | .InnerVectorizedTraversal =>
      if completeOk then .CompleteUnrolling
      else if innerOk then .InnerUnrolling
      else .NoUnrolling
  | .LinearVectorizedTraversal =>
      if completeOk && dst.alignedBit then .CompleteUnrolling else .NoUnrolling
  | .LinearTraversal =>
      if completeOk then .CompleteUnrolling else .NoUnrolling
  | .SliceVectorizedTraversal => .NoUnrolling

namespace copy_using_evaluator_traits

/-- The source-derived traversal selection agrees with the spec-side one. -/
lemma traversal_eq_spec (packetSize : Nat) (dst src : XprDesc) :
    Traversal_choice packetSize dst src = spec_traversal packetSize dst src := by
  unfold Traversal_choice spec_traversal MayInnerVectorize MayLinearVectorize
    MaySliceVectorize MayLinearize MightVectorize StorageOrdersAgree
  rcases h1 : InnerSize dst with _ | n <;>
    rcases h2 : InnerMaxSize dst with _ | m <;>
    rcases h3 : dst.sizeAtCompileTime with _ | s <;>
    simp [h1, h2, h3, Bool.and_assoc, Bool.or_assoc]

/-- The source-derived unrolling selection agrees with the spec-side one. -/
lemma unrolling_eq_spec (packetSize : Nat) (dst src : XprDesc) :
    Unrolling_choice packetSize dst src = spec_unrolling packetSize dst src := by
  unfold Unrolling_choice spec_unrolling
  rw [← traversal_eq_spec]
  rcases ht : Traversal_choice packetSize dst src <;>
    rcases h1 : dst.sizeAtCompileTime with _ | sz <;>
    rcases h2 : src.coeffReadCost with _ | cost <;>
    rcases h3 : InnerSize dst with _ | n <;>
    simp [MayUnrollCompletely, MayUnrollInner, UnrollingLimit, Vectorized,
      EIGEN_UNROLLING_LIMIT, h1, h2, h3, ht]

end copy_using_evaluator_traits

/-! The parallel decomposition helpers
(src/Eigen/src/Core/products/Parallelizer.h). -/

/-- One block of the 1-D decomposition: the `(blockStart, actualBlockSize)`
pair handed to the functor by `ei_run_parallel_1d`. -/
structure Block1d where
  blockStart : Nat
  blockSize : Nat
deriving DecidableEq, Repr

/-- The blocks generated by the parallel (OpenMP) branch of
`ei_run_parallel_1d` (Parallelizer.h lines 37-46): with
`blockSize = size / threads`, worker `i < threads` receives the block at
`blockStart = i*blockSize` of size `min(blockSize, size - blockStart)`. -/
def ei_run_parallel_1d_blocks (size threads : Nat) : List Block1d :=
  let blockSize := size / threads
  (List.range threads).map fun i =>
    { blockStart := i * blockSize,
      blockSize := min blockSize (size - i * blockSize) }

/-- Membership of an index in a 1-D block. -/
def Block1d.contains (b : Block1d) (j : Nat) : Bool :=
  b.blockStart ≤ j && j < b.blockStart + b.blockSize

/-- `divide1` table of `ei_run_parallel_2d` (Parallelizer.h line 60). -/
def divide1 : List Nat := [0, 1, 2, 3, 2, 5, 3, 7, 4, 3, 5, 11, 4, 13, 7, 5, 4]

/-- `divide2` table of `ei_run_parallel_2d` (Parallelizer.h line 61). -/
def divide2 : List Nat := [0, 1, 1, 1, 2, 1, 2, 1, 2, 3, 2, 1, 3, 1, 2, 3, 4]

/-- One column of the `ranges` matrix of `ei_run_parallel_2d`:
`(blockStart1, actualBlockSize1, blockStart2, actualBlockSize2)`. -/
structure Block2d where
  blockStart1 : Nat
  blockSize1 : Nat
  blockStart2 : Nat
  blockSize2 : Nat
deriving DecidableEq, Repr

/-- The columns written into the `ranges` matrix by `ei_run_parallel_2d`
(Parallelizer.h lines 63-80), in the order of the nested loops over
`i1 < divide1[threads]` and `i2 < divide2[threads]`; `k` is incremented once
per generated column. -/
def ei_run_parallel_2d_ranges (size1 size2 threads : Nat) : List Block2d :=
  let d1 := divide1.getD threads 0
  let d2 := divide2.getD threads 0
  let blockSize1 := size1 / d1
  let blockSize2 := size2 / d2
  (List.range d1).flatMap fun i1 =>
    (List.range d2).map fun i2 =>
      { blockStart1 := i1 * blockSize1,
        blockSize1 := min blockSize1 (size1 - i1 * blockSize1),
        blockStart2 := i2 * blockSize2,
        blockSize2 := min blockSize2 (size2 - i2 * blockSize2) }

lemma ei_run_parallel_2d_ranges_length (size1 size2 threads : Nat) :
    (ei_run_parallel_2d_ranges size1 size2 threads).length
      = divide1.getD threads 0 * divide2.getD threads 0 := by
  simp [ei_run_parallel_2d_ranges, Function.comp_def, List.map_const',
    List.sum_replicate, smul_eq_mul]

/-! The `Sum` expression node (src/Eigen/Core/Sum.h) and the runtime
expression model used for coefficient-level claims. -/

/-- A runtime expression operand: its shape and its coefficient accessor. -/
structure MatExpr (α : Type) where
  rows : Nat
  cols : Nat
  coeff : Nat → Nat → α

/-- `Sum::Sum` (src/Eigen/Core/Sum.h lines 38-42): the constructor asserts
`lhs.rows() == rhs.rows() && lhs.cols() == rhs.cols()`; a failed assertion is
modelled as `none`.  On success the node reports the left operand's shape
(`_rows`, `_cols`, lines 51-52) and its coefficient is the pointwise sum of
the operands (`_coeff`, lines 54-57). -/
def Sum_construct {α : Type} [Add α] (lhs rhs : MatExpr α) : Option (MatExpr α) :=
  if lhs.rows = rhs.rows ∧ lhs.cols = rhs.cols then
    some { rows := lhs.rows, cols := lhs.cols,
           coeff := fun r c => lhs.coeff r c + rhs.coeff r c }
  else none

/-! The `Reverse` expression (src/Eigen/src/Array/Reverse.h). -/

/-- The `Direction` template argument of `Reverse`. -/
inductive ReverseDirection where
  | Vertical
  | Horizontal
  | BothDirections
deriving DecidableEq, Repr

/-- `ReverseRow` (Reverse.h line 92). -/
def ReverseRow (dir : ReverseDirection) : Bool :=
  dir == .Vertical || dir == .BothDirections

/-- `ReverseCol` (Reverse.h line 93). -/
def ReverseCol (dir : ReverseDirection) : Bool :=
  dir == .Horizontal || dir == .BothDirections

/-- `Reverse::coeff(row, col)` (Reverse.h lines 116-120) packaged as an
expression node: same shape as the child (lines 107-108), coefficient read at
`(rows-row-1, cols-col-1)` on the reversed axes. -/
def reverseXpr {α : Type} (dir : ReverseDirection) (m : MatExpr α) : MatExpr α :=
  { rows := m.rows, cols := m.cols,
    coeff := fun r c =>
      m.coeff (if ReverseRow dir then m.rows - r - 1 else r)
              (if ReverseCol dir then m.cols - c - 1 else c) }

/-- The `Flags` bits manipulated by `ei_traits<Reverse>` (Reverse.h lines
52-67).  The hereditary group (`HereditaryBits`: the row-major bit and the
evaluation-ordering bits) is represented by its members; the numeric bit
constants live outside the excerpted sources, but the `Reverse` traits use
them only as a mask of bits kept from the child. -/
structure XprFlags where
  rowMajorBit : Bool
  evalBeforeNestingBit : Bool
  evalBeforeAssigningBit : Bool
  largeBit : Bool
  directAccessBit : Bool
  linearAccessBit : Bool
  packetAccessBit : Bool
  alignedBit : Bool
  upperTriangularBit : Bool
  lowerTriangularBit : Bool
deriving DecidableEq, Repr

/-- `ei_traits<Reverse<MatrixType, Direction>>::LinearAccess` and `::Flags`
(Reverse.h lines 59-64): the local `LinearAccess` mask is `LinearAccessBit`
exactly when the direction is `BothDirections` and the child flags have
`PacketAccessBit`; the node flags are the child flags masked by
`HereditaryBits | PacketAccessBit | LinearAccess`, with the triangular bits
recomputed by swapping the child's upper and lower triangular bits.  Bits not
in the kept mask (direct access, alignment) are dropped. -/
def reverseTraitsFlags (dir : ReverseDirection) (child : XprFlags) : XprFlags :=
  let linearAccessMask : Bool := (dir == .BothDirections) && child.packetAccessBit
  { rowMajorBit := child.rowMajorBit
    evalBeforeNestingBit := child.evalBeforeNestingBit
    evalBeforeAssigningBit := child.evalBeforeAssigningBit
    largeBit := child.largeBit
    directAccessBit := false
    linearAccessBit := child.linearAccessBit && linearAccessMask
    packetAccessBit := child.packetAccessBit
    alignedBit := false
    upperTriangularBit := child.lowerTriangularBit
    lowerTriangularBit := child.upperTriangularBit }

/-- A child-flags value advertising packet access but not linear access. -/
def packetOnlyFlags : XprFlags :=
  { rowMajorBit := false, evalBeforeNestingBit := false,
    evalBeforeAssigningBit := false, largeBit := false,
    directAccessBit := false, linearAccessBit := false,
    packetAccessBit := true, alignedBit := false,
    upperTriangularBit := false, lowerTriangularBit := false }

/-! Runtime model of the assignment executors (`copy_using_evaluator_impl`,
AssignEvaluator.h part 3).  The destination is a direct-storage dense
matrix, modelled as a flat buffer indexed linearly in its own storage order;
the source is a coefficient function over (row, col).  Since every executor
below is only instantiated when the classifier certifies that the two sides
agree in storage order (and, where linear or packet access is used, that both
sides support it), the source's linear reading `srcEvaluator.coeff(index)`
and its packet reading are derived from the same coefficient function
through the common storage order. -/

/-- The runtime shape of an assignment's destination (and source: shapes
match at assignment time): dimensions and storage order. -/
structure Shape where
  rows : Nat
  cols : Nat
  isRowMajor : Bool
deriving DecidableEq, Repr

namespace Shape

/-- `size()`. -/
def size (sh : Shape) : Nat := sh.rows * sh.cols

/-- `innerSize()`: the extent of the fastest-varying index. -/
def innerSize (sh : Shape) : Nat := if sh.isRowMajor then sh.cols else sh.rows

/-- `outerSize()`. -/
def outerSize (sh : Shape) : Nat := if sh.isRowMajor then sh.rows else sh.cols

/-- `rowIndexByOuterInner` (src/Eigen/src/Core/Coeffs.h lines 41-47) in the
general matrix case: the outer index for a row-major type, else the inner
index.  (The source's vector special cases coincide with this mapping under
the evaluator's inner/outer-size conventions.) -/
def rowIx (sh : Shape) (outer inner : Nat) : Nat :=
  if sh.isRowMajor then outer else inner

/-- `colIndexByOuterInner` (Coeffs.h lines 49-55). -/
def colIx (sh : Shape) (outer inner : Nat) : Nat :=
  if sh.isRowMajor then inner else outer

/-- The linear (memory) index of coefficient `(r, c)` in the shape's own
storage order. -/
def linOf (sh : Shape) (r c : Nat) : Nat :=
  if sh.isRowMajor then r * sh.cols + c else c * sh.rows + r

/-- The row holding linear index `i`. -/
def rowOfLin (sh : Shape) (i : Nat) : Nat :=
  if sh.isRowMajor then i / sh.cols else i % sh.rows

/-- The column holding linear index `i`. -/
def colOfLin (sh : Shape) (i : Nat) : Nat :=
  if sh.isRowMajor then i % sh.cols else i / sh.rows

end Shape

/-- Overwrite one cell of a flat buffer
(`dstEvaluator.coeffRef(...) = value`). -/
def wr {α : Type} (b : Nat → α) (i : Nat) (v : α) : Nat → α :=
  fun n => if n = i then v else b n

/-- Apply a sequence of writes left to right (later writes win). -/
def applyWrites {α : Type} (b : Nat → α) (ws : List (Nat × α)) : Nat → α :=
  ws.foldl (fun b p => wr b p.1 p.2) b

/-- The linear-order reading of a source coefficient function: the value at
the cell holding linear index `i` of the common storage order.  This is what
`srcEvaluator.coeff(index)` returns when linear access applies, and what
element `k` of a source packet based at linear index `i - k` holds. -/
def srcLin {α : Type} (sh : Shape) (src : Nat → Nat → α) (i : Nat) : α :=
  src (sh.rowOfLin i) (sh.colOfLin i)

/-- One scalar transfer at outer/inner coordinates:
`dstEvaluator.coeffRef(row, col) = srcEvaluator.coeff(row, col)` with
`row = rowIndexByOuterInner(outer, inner)` and similarly for `col`. -/
def coeffWriteOI {α : Type} (sh : Shape) (src : Nat → Nat → α)
    (outer inner : Nat) : Nat × α :=
  (sh.linOf (sh.rowIx outer inner) (sh.colIx outer inner),
   src (sh.rowIx outer inner) (sh.colIx outer inner))

/-- One packet transfer at outer/inner coordinates:
`dstEvaluator.writePacket(row, col, srcEvaluator.packet(row, col))` moves
`p` consecutive elements of the common storage order starting at the memory
position of `(row, col)`. -/
def packetWritesOI {α : Type} (sh : Shape) (src : Nat → Nat → α)
    (p outer inner : Nat) : List (Nat × α) :=
  let base := sh.linOf (sh.rowIx outer inner) (sh.colIx outer inner)
  (List.range p).map fun k => (base + k, srcLin sh src (base + k))

/-- One packet transfer at a linear index. -/
def packetWritesLin {α : Type} (sh : Shape) (src : Nat → Nat → α)
    (p i : Nat) : List (Nat × α) :=
  (List.range p).map fun k => (i + k, srcLin sh src (i + k))

/-- The `(Traversal, Unrolling)` executor specializations of
`copy_using_evaluator_impl` present in AssignEvaluator.h part 3. -/
inductive Strategy where
  | defaultNoUnroll
  | defaultComplete
  | defaultInnerUnroll
  | linearNoUnroll
  | linearComplete
  | innerVecNoUnroll
  | innerVecComplete
  | innerVecInnerUnroll
  | linearVecNoUnroll
  | linearVecComplete
  | sliceVecNoUnroll
deriving DecidableEq, Repr

/-- `alignedStep` of the SliceVectorizedTraversal executor (AssignEvaluator.h
line 602): `(packetSize - dst.outerStride() % packetSize) & packetAlignedMask`
with `packetAlignedMask = packetSize - 1`; the outer stride of the flat dense
destination is its inner size, and `alignable` holds for scalar-alignable
packet types. -/
def sliceAlignedStep (sh : Shape) (p : Nat) : Nat :=
  Nat.land (p - sh.innerSize % p) (p - 1)

/-- The value of the SliceVectorizedTraversal executor's running
`alignedStart` variable at the start of outer iteration `o` (line 630):
starting from the initial first-aligned offset `a`, each iteration sets
`alignedStart = min((alignedStart + alignedStep) % packetSize, innerSize)`. -/
def sliceAlignedStart (sh : Shape) (p a : Nat) : Nat → Nat
  | 0 => a
  | o + 1 =>
      min ((sliceAlignedStart sh p a o + sliceAlignedStep sh p) % p) sh.innerSize

/-- The writes of one outer iteration of the SliceVectorizedTraversal
executor (lines 606-631): the scalar prefix `[0, alignedStart)`, the packet
middle `[alignedStart, alignedEnd)` stepping by the packet size, and the
scalar tail `[alignedEnd, innerSize)`, where `alignedEnd = alignedStart +
((innerSize - alignedStart) & ~packetAlignedMask)` (line 608); masking out
the low bits of `x` with `~(p-1)` subtracts `x & (p-1)` from `x`. -/
def sliceWrites {α : Type} (sh : Shape) (src : Nat → Nat → α)
    (p aS outer : Nat) : List (Nat × α) :=
  let x := sh.innerSize - aS
  let alignedEnd := aS + (x - Nat.land x (p - 1))
  ((List.range aS).map fun inner => coeffWriteOI sh src outer inner)
    ++ ((List.range ((alignedEnd - aS + p - 1) / p)).flatMap fun t =>
          packetWritesOI sh src p outer (aS + t * p))
    ++ ((List.range (sh.innerSize - alignedEnd)).map fun k =>
          coeffWriteOI sh src outer (alignedEnd + k))

/-- The full sequence of destination writes performed by each executor, in
program order.  `p` is the platform packet size; `a` is the runtime
`alignedStart` (the `first_aligned` probe result, or 0 for a statically
aligned destination) where the executor uses one.  Meta-unrolled
(`CompleteUnrolling` / `InnerUnrolling`) recursions enumerate `Index` from 0
(stepping by 1, or by the packet size for packet unrollers) up to their
`Stop` bound, which the recursion must hit exactly. -/
def strategyWrites {α : Type} (s : Strategy) (sh : Shape)
    (src : Nat → Nat → α) (p a : Nat) : List (Nat × α) :=
  match s with
  | .defaultNoUnroll =>
      -- lines 326-346: nested outer/inner loops of scalar transfers
      (List.range sh.outerSize).flatMap fun outer =>
        (List.range sh.innerSize).map fun inner => coeffWriteOI sh src outer inner
  | .defaultComplete =>
      -- lines 348-362 with the meta-unroller of lines 157-187:
      -- outer = Index / InnerSize, inner = Index % InnerSize
      (List.range sh.size).map fun idx =>
        coeffWriteOI sh src (idx / sh.innerSize) (idx % sh.innerSize)
  | .defaultInnerUnroll =>
      -- lines 364-381 with the meta-unroller of lines 189-215
      (List.range sh.outerSize).flatMap fun outer =>
        (List.range sh.innerSize).map fun inner => coeffWriteOI sh src outer inner
  | .linearNoUnroll =>
      -- lines 542-558: one scalar transfer per linear index
      (List.range sh.size).map fun i => (i, srcLin sh src i)
  | .linearComplete =>
      -- lines 560-574 with the meta-unroller of lines 221-244
      (List.range sh.size).map fun i => (i, srcLin sh src i)
  | .innerVecNoUnroll =>
      -- lines 478-501: the inner loop steps by the packet size
      (List.range sh.outerSize).flatMap fun outer =>
        (List.range ((sh.innerSize + p - 1) / p)).flatMap fun t =>
          packetWritesOI sh src p outer (t * p)
  | .innerVecComplete =>
      -- lines 503-517 with the meta-unroller of lines 250-281:
      -- Index steps by the packet size from 0 to SizeAtCompileTime
      (List.range (sh.size / p)).flatMap fun t =>
        packetWritesOI sh src p ((t * p) / sh.innerSize) ((t * p) % sh.innerSize)
  | .innerVecInnerUnroll =>
      -- lines 519-536 with the meta-unroller of lines 283-309
      (List.range sh.outerSize).flatMap fun outer =>
        (List.range (sh.innerSize / p)).flatMap fun t =>
          packetWritesOI sh src p outer (t * p)
  | .linearVecNoUnroll =>
      -- lines 417-449: scalar prefix [0, alignedStart), packet middle
      -- [alignedStart, alignedEnd), scalar tail [alignedEnd, size), with
      -- alignedEnd = alignedStart + ((size-alignedStart)/packetSize)*packetSize
      ((List.range a).map fun i => (i, srcLin sh src i))
        ++ ((List.range ((sh.size - a) / p)).flatMap fun t =>
              packetWritesLin sh src p (a + t * p))
        ++ ((List.range (sh.size - (a + ((sh.size - a) / p) * p))).map fun k =>
              (a + ((sh.size - a) / p) * p + k,
               srcLin sh src (a + ((sh.size - a) / p) * p + k)))
  | .linearVecComplete =>
      -- lines 451-472: packet meta-unroller from 0 to
      -- alignedSize = (size/packetSize)*packetSize, then the scalar
      -- meta-unroller from alignedSize to size
      ((List.range (sh.size / p)).flatMap fun t =>
          packetWritesOI sh src p ((t * p) / sh.innerSize) ((t * p) % sh.innerSize))
        ++ ((List.range (sh.size - sh.size / p * p)).map fun k =>
              coeffWriteOI sh src ((sh.size / p * p + k) / sh.innerSize)
                ((sh.size / p * p + k) % sh.innerSize))
  | .sliceVecNoUnroll =>
      -- lines 580-633
      (List.range sh.outerSize).flatMap fun outer =>
        sliceWrites sh src p (sliceAlignedStart sh p a outer) outer

/-- Running one `copy_using_evaluator_impl<DstXprType, SrcXprType,
Traversal, Unrolling>::run(dst, src)` executor over an initial destination
buffer. -/
def copy_using_evaluator_run {α : Type} (s : Strategy) (sh : Shape)
    (src : Nat → Nat → α) (p a : Nat) (buf : Nat → α) : Nat → α :=
  applyWrites buf (strategyWrites s sh src p a)

/-- The conditions under which each executor is instantiated and run: the
classifier guarantees packet-size divisibility of the inner size for
InnerVectorizedTraversal; meta-unrolled packet recursions must hit their stop
bound exactly; the runtime `first_aligned` probe is capped at the element
count it scans; and packet sizes are positive powers of two on every
platform.  Scalar executors have no side conditions. -/
def strategyPrecond (s : Strategy) (sh : Shape) (p a : Nat) : Prop :=
  match s with
  | .defaultNoUnroll | .defaultComplete | .defaultInnerUnroll
  | .linearNoUnroll | .linearComplete => True
  | .innerVecNoUnroll | .innerVecComplete | .innerVecInnerUnroll =>
      0 < p ∧ p ∣ sh.innerSize
  | .linearVecNoUnroll => 0 < p ∧ a ≤ sh.size
  | .linearVecComplete => 0 < p
  | .sliceVecNoUnroll => (∃ k, p = 2 ^ k) ∧ a ≤ sh.innerSize

/-- The result of the baseline executor as a single expression: inside the
destination extent every linear position holds the source value of its cell;
outside, the buffer is untouched. -/
def copiedBuf {α : Type} (sh : Shape) (src : Nat → Nat → α)
    (buf : Nat → α) : Nat → α :=
  fun i => if i < sh.size then srcLin sh src i else buf i

/-- The first `size` cells of a destination buffer, as a list. -/
def bufList {α : Type} (sh : Shape) (b : Nat → α) : List α :=
  (List.range sh.size).map b

lemma applyWrites_cons {α : Type} (b : Nat → α) (hd : Nat × α) (tl : List (Nat × α)) :
    applyWrites b (hd :: tl) = applyWrites (wr b hd.1 hd.2) tl := rfl

lemma applyWrites_of_not_mem {α : Type} (b : Nat → α) (ws : List (Nat × α))
    (i : Nat) (h : ∀ pr ∈ ws, pr.1 ≠ i) : applyWrites b ws i = b i := by
  induction ws generalizing b with
  | nil => rfl
  | cons hd tl ih =>
      rw [applyWrites_cons, ih (wr b hd.1 hd.2) fun pr hpr => h pr (List.mem_cons_of_mem _ hpr)]
      have hhd : hd.1 ≠ i := h hd (List.mem_cons_self hd tl)
      simp [wr, Ne.symm hhd]

lemma applyWrites_last_val {α : Type} (b : Nat → α) (ws : List (Nat × α))
    (i : Nat) (v : α) (hval : ∀ pr ∈ ws, pr.1 = i → pr.2 = v)
    (hmem : ∃ pr ∈ ws, pr.1 = i) : applyWrites b ws i = v := by
  induction ws generalizing b with
  | nil => simp at hmem
  | cons hd tl ih =>
      rw [applyWrites_cons]
      by_cases hm : ∃ pr ∈ tl, pr.1 = i
      · exact ih (wr b hd.1 hd.2) (fun pr hpr hp => hval pr (List.mem_cons_of_mem _ hpr) hp) hm
      · have hhd : hd.1 = i := by
          rcases hmem with ⟨pr, hpr, hi⟩
          rcases List.mem_cons.mp hpr with h | h
          · rw [← h]; exact hi
          · exact absurd ⟨pr, h, hi⟩ hm
        have hpass : ∀ pr ∈ tl, pr.1 ≠ i := by
          intro pr hpr hcon
          exact hm ⟨pr, hpr, hcon⟩
        rw [applyWrites_of_not_mem _ _ _ hpass]
        have := hval hd (List.mem_cons_self hd tl) hhd
        simp [wr, hhd, this]

/-- A write sequence that stays inside the destination extent, always writes
the source value of the cell it touches, and touches every cell, produces
exactly the element-for-element copy. -/
lemma applyWrites_copies {α : Type} (sh : Shape) (src : Nat → Nat → α)
    (b : Nat → α) (ws : List (Nat × α))
    (hsound : ∀ pr ∈ ws, pr.1 < sh.size ∧ pr.2 = srcLin sh src pr.1)
    (hcover : ∀ i, i < sh.size → ∃ pr ∈ ws, pr.1 = i) :
    applyWrites b ws = copiedBuf sh src b := by
  funext i
  by_cases hi : i < sh.size
  · rw [copiedBuf, if_pos hi]
    refine applyWrites_last_val b ws i (srcLin sh src i) ?_ (hcover i hi)
    intro pr hpr hp
    have := (hsound pr hpr).2
    rw [hp] at this
    exact this
  · rw [copiedBuf, if_neg hi]
    refine applyWrites_of_not_mem b ws i ?_
    intro pr hpr hcon
    exact hi (hcon ▸ (hsound pr hpr).1)

lemma Shape.outer_mul_inner (sh : Shape) : sh.outerSize * sh.innerSize = sh.size := by
  cases h : sh.isRowMajor <;>
    simp [Shape.outerSize, Shape.innerSize, Shape.size, h, Nat.mul_comm]

lemma Shape.linOf_OI (sh : Shape) (outer inner : Nat) :
    sh.linOf (sh.rowIx outer inner) (sh.colIx outer inner)
      = outer * sh.innerSize + inner := by
  cases h : sh.isRowMajor <;>
    simp [Shape.linOf, Shape.rowIx, Shape.colIx, Shape.innerSize, h]

lemma Shape.rowOfLin_OI (sh : Shape) (outer : Nat) {inner : Nat}
    (h : inner < sh.innerSize) :
    sh.rowOfLin (outer * sh.innerSize + inner) = sh.rowIx outer inner := by
  cases hrm : sh.isRowMajor <;>
    simp only [Shape.innerSize, hrm] at h <;>
    simp only [Bool.false_eq_true, if_false, if_true] at h <;>
    simp [Shape.rowOfLin, Shape.rowIx, Shape.innerSize, hrm]
  · rw [Nat.mul_comm, Nat.mul_add_mod, Nat.mod_eq_of_lt h]
  · rw [Nat.mul_comm, Nat.mul_add_div (Nat.lt_of_le_of_lt (Nat.zero_le _) h),
      Nat.div_eq_of_lt h, Nat.add_zero]

lemma Shape.colOfLin_OI (sh : Shape) (outer : Nat) {inner : Nat}
    (h : inner < sh.innerSize) :
    sh.colOfLin (outer * sh.innerSize + inner) = sh.colIx outer inner := by
  cases hrm : sh.isRowMajor <;>
    simp only [Shape.innerSize, hrm] at h <;>
    simp only [Bool.false_eq_true, if_false, if_true] at h <;>
    simp [Shape.colOfLin, Shape.colIx, Shape.innerSize, hrm]
  · rw [Nat.mul_comm, Nat.mul_add_div (Nat.lt_of_le_of_lt (Nat.zero_le _) h),
      Nat.div_eq_of_lt h, Nat.add_zero]
  · rw [Nat.mul_comm, Nat.mul_add_mod, Nat.mod_eq_of_lt h]

lemma srcLin_OI {α : Type} (sh : Shape) (src : Nat → Nat → α) (outer : Nat)
    {inner : Nat} (h : inner < sh.innerSize) :
    srcLin sh src (outer * sh.innerSize + inner)
      = src (sh.rowIx outer inner) (sh.colIx outer inner) := by
  rw [srcLin, Shape.rowOfLin_OI sh outer h, Shape.colOfLin_OI sh outer h]

lemma coeffWriteOI_eq {α : Type} (sh : Shape) (src : Nat → Nat → α)
    (outer : Nat) {inner : Nat} (h : inner < sh.innerSize) :
    coeffWriteOI sh src outer inner
      = (outer * sh.innerSize + inner,
         srcLin sh src (outer * sh.innerSize + inner)) := by
  rw [coeffWriteOI, Shape.linOf_OI, srcLin_OI sh src outer h]

lemma OI_lt_size (sh : Shape) {outer inner : Nat}
    (ho : outer < sh.outerSize) (hi : inner < sh.innerSize) :
    outer * sh.innerSize + inner < sh.size := by
  calc outer * sh.innerSize + inner
      < outer * sh.innerSize + sh.innerSize := Nat.add_lt_add_left hi _
    _ = (outer + 1) * sh.innerSize := (Nat.succ_mul outer sh.innerSize).symm
    _ ≤ sh.outerSize * sh.innerSize := Nat.mul_le_mul_right _ ho
    _ = sh.size := sh.outer_mul_inner

lemma Shape.innerSize_pos (sh : Shape) (h : 0 < sh.size) : 0 < sh.innerSize := by
  have hr : sh.rows ≠ 0 := fun h0 => by simp [Shape.size, h0] at h
  have hc : sh.cols ≠ 0 := fun h0 => by simp [Shape.size, h0] at h
  cases hrm : sh.isRowMajor <;> simp [Shape.innerSize, hrm] <;>
    exact Nat.pos_of_ne_zero (by assumption)

lemma Shape.outerSize_pos (sh : Shape) (h : 0 < sh.size) : 0 < sh.outerSize := by
  have hr : sh.rows ≠ 0 := fun h0 => by simp [Shape.size, h0] at h
  have hc : sh.cols ≠ 0 := fun h0 => by simp [Shape.size, h0] at h
  cases hrm : sh.isRowMajor <;> simp [Shape.outerSize, hrm] <;>
    exact Nat.pos_of_ne_zero (by assumption)

lemma land_two_pow_sub_one (x k : Nat) : Nat.land x (2 ^ k - 1) = x % 2 ^ k := by
  show x &&& (2 ^ k - 1) = x % 2 ^ k
  apply Nat.eq_of_testBit_eq
  intro i
  rw [Nat.testBit_land, Nat.testBit_mod_two_pow, Nat.testBit_two_pow_sub_one,
    Bool.and_comm]

lemma div_mul_add_mod (i n : Nat) : i / n * n + i % n = i := by
  rw [Nat.mul_comm]
  exact Nat.div_add_mod i n

lemma ceil_div_eq_of_dvd {p n : Nat} (hp : 0 < p) (hd : p ∣ n) :
    (n + p - 1) / p = n / p := by
  obtain ⟨m, rfl⟩ := hd
  have h1 : p * m + p - 1 = p * m + (p - 1) := by omega
  rw [h1, Nat.mul_add_div hp, Nat.div_eq_of_lt (by omega), Nat.add_zero,
    Nat.mul_div_cancel_left m hp]

lemma packetWritesOI_elem {α : Type} (sh : Shape) (src : Nat → Nat → α)
    (p outer inner : Nat) {pr : Nat × α} (hpr : pr ∈ packetWritesOI sh src p outer inner) :
    ∃ k < p, pr = (outer * sh.innerSize + inner + k,
                   srcLin sh src (outer * sh.innerSize + inner + k)) := by
  simp only [packetWritesOI, List.mem_map, List.mem_range, Shape.linOf_OI] at hpr
  obtain ⟨k, hk, rfl⟩ := hpr
  exact ⟨k, hk, rfl⟩

lemma packetWritesOI_mem {α : Type} (sh : Shape) (src : Nat → Nat → α)
    (p outer inner k : Nat) (hk : k < p) :
    (outer * sh.innerSize + inner + k,
     srcLin sh src (outer * sh.innerSize + inner + k))
      ∈ packetWritesOI sh src p outer inner := by
  simp only [packetWritesOI, List.mem_map, List.mem_range, Shape.linOf_OI]
  exact ⟨k, hk, rfl⟩

lemma packetWritesLin_elem {α : Type} (sh : Shape) (src : Nat → Nat → α)
    (p i : Nat) {pr : Nat × α} (hpr : pr ∈ packetWritesLin sh src p i) :
    ∃ k < p, pr = (i + k, srcLin sh src (i + k)) := by
  simp only [packetWritesLin, List.mem_map, List.mem_range] at hpr
  obtain ⟨k, hk, rfl⟩ := hpr
  exact ⟨k, hk, rfl⟩

lemma packetWritesLin_mem {α : Type} (sh : Shape) (src : Nat → Nat → α)
    (p i k : Nat) (hk : k < p) :
    (i + k, srcLin sh src (i + k)) ∈ packetWritesLin sh src p i := by
  simp only [packetWritesLin, List.mem_map, List.mem_range]
  exact ⟨k, hk, rfl⟩

lemma writesDefaultLoop_sound {α : Type} (sh : Shape) (src : Nat → Nat → α)
    {pr : Nat × α}
    (hpr : pr ∈ (List.range sh.outerSize).flatMap fun outer =>
        (List.range sh.innerSize).map fun inner => coeffWriteOI sh src outer inner) :
    pr.1 < sh.size ∧ pr.2 = srcLin sh src pr.1 := by
  simp only [List.mem_flatMap, List.mem_map, List.mem_range] at hpr
  obtain ⟨outer, ho, inner, hi, rfl⟩ := hpr
  rw [coeffWriteOI_eq sh src outer hi]
  exact ⟨OI_lt_size sh ho hi, rfl⟩

lemma writesDefaultLoop_cover {α : Type} (sh : Shape) (src : Nat → Nat → α)
    {i : Nat} (hi : i < sh.size) :
    ∃ pr ∈ (List.range sh.outerSize).flatMap fun outer =>
        (List.range sh.innerSize).map fun inner => coeffWriteOI sh src outer inner,
      pr.1 = i := by
  have hsz : 0 < sh.size := Nat.lt_of_le_of_lt (Nat.zero_le i) hi
  have his := sh.innerSize_pos hsz
  refine ⟨coeffWriteOI sh src (i / sh.innerSize) (i % sh.innerSize), ?_, ?_⟩
  · simp only [List.mem_flatMap, List.mem_map, List.mem_range]
    refine ⟨i / sh.innerSize, ?_, i % sh.innerSize, Nat.mod_lt i his, rfl⟩
    rw [Nat.div_lt_iff_lt_mul his, sh.outer_mul_inner]
    exact hi
  · rw [coeffWriteOI_eq sh src _ (Nat.mod_lt i his)]
    exact div_mul_add_mod i sh.innerSize

lemma writesDefaultUnrolled_sound {α : Type} (sh : Shape) (src : Nat → Nat → α)
    (start count : Nat) (hcount : start + count ≤ sh.size) {pr : Nat × α}
    (hpr : pr ∈ (List.range count).map fun k =>
        coeffWriteOI sh src ((start + k) / sh.innerSize) ((start + k) % sh.innerSize)) :
    pr.1 < sh.size ∧ pr.2 = srcLin sh src pr.1 := by
  simp only [List.mem_map, List.mem_range] at hpr
  obtain ⟨k, hk, rfl⟩ := hpr
  have hsz : 0 < sh.size := by omega
  have his := sh.innerSize_pos hsz
  rw [coeffWriteOI_eq sh src _ (Nat.mod_lt _ his), div_mul_add_mod]
  exact ⟨by omega, rfl⟩

lemma writesDefaultUnrolled_cover {α : Type} (sh : Shape) (src : Nat → Nat → α)
    (start count i : Nat) (hlo : start ≤ i) (hhi : i < start + count)
    (hsz : 0 < sh.size) :
    ∃ pr ∈ (List.range count).map fun k =>
        coeffWriteOI sh src ((start + k) / sh.innerSize) ((start + k) % sh.innerSize),
      pr.1 = i := by
  have his := sh.innerSize_pos hsz
  refine ⟨coeffWriteOI sh src (i / sh.innerSize) (i % sh.innerSize), ?_, ?_⟩
  · simp only [List.mem_map, List.mem_range]
    refine ⟨i - start, by omega, ?_⟩
    rw [show start + (i - start) = i by omega]
  · rw [coeffWriteOI_eq sh src _ (Nat.mod_lt i his)]
    exact div_mul_add_mod i sh.innerSize

lemma writesDefaultComplete_sound {α : Type} (sh : Shape) (src : Nat → Nat → α)
    {pr : Nat × α}
    (hpr : pr ∈ (List.range sh.size).map fun idx =>
        coeffWriteOI sh src (idx / sh.innerSize) (idx % sh.innerSize)) :
    pr.1 < sh.size ∧ pr.2 = srcLin sh src pr.1 := by
  simp only [List.mem_map, List.mem_range] at hpr
  obtain ⟨idx, hidx, rfl⟩ := hpr
  have his := sh.innerSize_pos (Nat.lt_of_le_of_lt (Nat.zero_le idx) hidx)
  rw [coeffWriteOI_eq sh src _ (Nat.mod_lt _ his), div_mul_add_mod]
  exact ⟨hidx, rfl⟩

lemma writesDefaultComplete_cover {α : Type} (sh : Shape) (src : Nat → Nat → α)
    {i : Nat} (hi : i < sh.size) :
    ∃ pr ∈ (List.range sh.size).map fun idx =>
        coeffWriteOI sh src (idx / sh.innerSize) (idx % sh.innerSize),
      pr.1 = i := by
  have his := sh.innerSize_pos (Nat.lt_of_le_of_lt (Nat.zero_le i) hi)
  refine ⟨coeffWriteOI sh src (i / sh.innerSize) (i % sh.innerSize), ?_, ?_⟩
  · simp only [List.mem_map, List.mem_range]
    exact ⟨i, hi, rfl⟩
  · rw [coeffWriteOI_eq sh src _ (Nat.mod_lt i his)]
    exact div_mul_add_mod i sh.innerSize

lemma writesLinear_sound {α : Type} (sh : Shape) (src : Nat → Nat → α)
    {pr : Nat × α}
    (hpr : pr ∈ (List.range sh.size).map fun i => (i, srcLin sh src i)) :
    pr.1 < sh.size ∧ pr.2 = srcLin sh src pr.1 := by
  simp only [List.mem_map, List.mem_range] at hpr
  obtain ⟨i, hi, rfl⟩ := hpr
  exact ⟨hi, rfl⟩

lemma writesLinear_cover {α : Type} (sh : Shape) (src : Nat → Nat → α)
    {i : Nat} (hi : i < sh.size) :
    ∃ pr ∈ (List.range sh.size).map fun i => (i, srcLin sh src i), pr.1 = i := by
  refine ⟨(i, srcLin sh src i), ?_, rfl⟩
  simp only [List.mem_map, List.mem_range]
  exact ⟨i, hi, rfl⟩

lemma writesInnerVecLoop_sound {α : Type} (sh : Shape) (src : Nat → Nat → α)
    {p : Nat} (hp : 0 < p) (hdvd : p ∣ sh.innerSize) {count : Nat}
    (hcount : count ≤ sh.innerSize / p) {pr : Nat × α}
    (hpr : pr ∈ (List.range sh.outerSize).flatMap fun outer =>
        (List.range count).flatMap fun t => packetWritesOI sh src p outer (t * p)) :
    pr.1 < sh.size ∧ pr.2 = srcLin sh src pr.1 := by
  simp only [List.mem_flatMap, List.mem_range] at hpr
  obtain ⟨outer, ho, t, ht, hmem⟩ := hpr
  obtain ⟨k, hk, rfl⟩ := packetWritesOI_elem sh src p outer (t * p) hmem
  refine ⟨?_, rfl⟩
  have hin : t * p + k < sh.innerSize := by
    have h1 : t + 1 ≤ sh.innerSize / p := by omega
    have h2 : (t + 1) * p ≤ sh.innerSize / p * p := Nat.mul_le_mul_right p h1
    have h3 : sh.innerSize / p * p = sh.innerSize := Nat.div_mul_cancel hdvd
    have h4 : (t + 1) * p = t * p + p := Nat.succ_mul t p
    omega
  have := OI_lt_size sh ho hin
  omega

lemma writesInnerVecLoop_cover {α : Type} (sh : Shape) (src : Nat → Nat → α)
    {p : Nat} (hp : 0 < p) (hdvd : p ∣ sh.innerSize) {count : Nat}
    (hcount : sh.innerSize / p ≤ count) {i : Nat} (hi : i < sh.size) :
    ∃ pr ∈ (List.range sh.outerSize).flatMap fun outer =>
        (List.range count).flatMap fun t => packetWritesOI sh src p outer (t * p),
      pr.1 = i := by
  have hsz : 0 < sh.size := Nat.lt_of_le_of_lt (Nat.zero_le i) hi
  have his := sh.innerSize_pos hsz
  set outer := i / sh.innerSize with houter
  set innerF := i % sh.innerSize with hinner
  have hoOS : outer < sh.outerSize := by
    rw [houter, Nat.div_lt_iff_lt_mul his, sh.outer_mul_inner]
    exact hi
  have hinIS : innerF < sh.innerSize := Nat.mod_lt i his
  refine ⟨(outer * sh.innerSize + innerF / p * p + innerF % p,
           srcLin sh src (outer * sh.innerSize + innerF / p * p + innerF % p)),
          ?_, ?_⟩
  · simp only [List.mem_flatMap, List.mem_range]
    refine ⟨outer, hoOS, innerF / p, ?_, packetWritesOI_mem sh src p outer (innerF / p * p) (innerF % p) (Nat.mod_lt innerF hp)⟩
    have := Nat.div_lt_div_of_lt_of_dvd hdvd hinIS
    omega
  · rw [Nat.add_assoc, div_mul_add_mod innerF p, houter, hinner, div_mul_add_mod]

lemma writesInnerVecComplete_sound {α : Type} (sh : Shape) (src : Nat → Nat → α)
    {p : Nat} (hp : 0 < p) {pr : Nat × α}
    (hpr : pr ∈ (List.range (sh.size / p)).flatMap fun t =>
        packetWritesOI sh src p ((t * p) / sh.innerSize) ((t * p) % sh.innerSize)) :
    pr.1 < sh.size ∧ pr.2 = srcLin sh src pr.1 := by
  simp only [List.mem_flatMap, List.mem_range] at hpr
  obtain ⟨t, ht, hmem⟩ := hpr
  obtain ⟨k, hk, rfl⟩ := packetWritesOI_elem sh src p _ _ hmem
  rw [div_mul_add_mod (t * p) sh.innerSize]
  refine ⟨?_, rfl⟩
  have h2 : (t + 1) * p ≤ sh.size / p * p := Nat.mul_le_mul_right p (by omega)
  have h3 : sh.size / p * p ≤ sh.size := Nat.div_mul_le_self sh.size p
  have h4 : (t + 1) * p = t * p + p := Nat.succ_mul t p
  omega

lemma writesInnerVecComplete_cover {α : Type} (sh : Shape) (src : Nat → Nat → α)
    {p : Nat} (hp : 0 < p) {i : Nat} (hi : i < sh.size / p * p) :
    ∃ pr ∈ (List.range (sh.size / p)).flatMap fun t =>
        packetWritesOI sh src p ((t * p) / sh.innerSize) ((t * p) % sh.innerSize),
      pr.1 = i := by
  set t := i / p with htdef
  refine ⟨(t * p / sh.innerSize * sh.innerSize + t * p % sh.innerSize + i % p,
           srcLin sh src (t * p / sh.innerSize * sh.innerSize + t * p % sh.innerSize + i % p)),
          ?_, ?_⟩
  · simp only [List.mem_flatMap, List.mem_range]
    refine ⟨t, ?_,
      packetWritesOI_mem sh src p (t * p / sh.innerSize) (t * p % sh.innerSize)
        (i % p) (Nat.mod_lt i hp)⟩
    rw [htdef, Nat.div_lt_iff_lt_mul hp]
    exact hi
  · rw [div_mul_add_mod (t * p) sh.innerSize, htdef, div_mul_add_mod i p]

lemma writesLinearVecNoUnroll_sound {α : Type} (sh : Shape) (src : Nat → Nat → α)
    {p a : Nat} (hp : 0 < p) (ha : a ≤ sh.size) {pr : Nat × α}
    (hpr : pr ∈ ((List.range a).map fun i => (i, srcLin sh src i))
        ++ ((List.range ((sh.size - a) / p)).flatMap fun t =>
              packetWritesLin sh src p (a + t * p))
        ++ ((List.range (sh.size - (a + ((sh.size - a) / p) * p))).map fun k =>
              (a + ((sh.size - a) / p) * p + k,
               srcLin sh src (a + ((sh.size - a) / p) * p + k)))) :
    pr.1 < sh.size ∧ pr.2 = srcLin sh src pr.1 := by
  rcases List.mem_append.mp hpr with h | h
  · rcases List.mem_append.mp h with h1 | h2
    · simp only [List.mem_map, List.mem_range] at h1
      obtain ⟨i, hi, rfl⟩ := h1
      exact ⟨by omega, rfl⟩
    · simp only [List.mem_flatMap, List.mem_range] at h2
      obtain ⟨t, ht, hmem⟩ := h2
      obtain ⟨k, hk, rfl⟩ := packetWritesLin_elem sh src p _ hmem
      refine ⟨?_, rfl⟩
      have h2 : (t + 1) * p ≤ (sh.size - a) / p * p := Nat.mul_le_mul_right p (by omega)
      have h3 : (sh.size - a) / p * p ≤ sh.size - a := Nat.div_mul_le_self _ p
      have h4 : (t + 1) * p = t * p + p := Nat.succ_mul t p
      omega
  · simp only [List.mem_map, List.mem_range] at h
    obtain ⟨k, hk, rfl⟩ := h
    exact ⟨by omega, rfl⟩

lemma writesLinearVecNoUnroll_cover {α : Type} (sh : Shape) (src : Nat → Nat → α)
    {p a : Nat} (hp : 0 < p) {i : Nat} (hi : i < sh.size) :
    ∃ pr ∈ ((List.range a).map fun i => (i, srcLin sh src i))
        ++ ((List.range ((sh.size - a) / p)).flatMap fun t =>
              packetWritesLin sh src p (a + t * p))
        ++ ((List.range (sh.size - (a + ((sh.size - a) / p) * p))).map fun k =>
              (a + ((sh.size - a) / p) * p + k,
               srcLin sh src (a + ((sh.size - a) / p) * p + k))),
      pr.1 = i := by
  by_cases h1 : i < a
  · refine ⟨(i, srcLin sh src i), ?_, rfl⟩
    refine List.mem_append.mpr (Or.inl (List.mem_append.mpr (Or.inl ?_)))
    simp only [List.mem_map, List.mem_range]
    exact ⟨i, h1, rfl⟩
  · by_cases h2 : i < a + (sh.size - a) / p * p
    · set t := (i - a) / p with htdef
      refine ⟨(a + t * p + (i - a) % p, srcLin sh src (a + t * p + (i - a) % p)), ?_, ?_⟩
      · refine List.mem_append.mpr (Or.inl (List.mem_append.mpr (Or.inr ?_)))
        simp only [List.mem_flatMap, List.mem_range]
        refine ⟨t, ?_, packetWritesLin_mem sh src p (a + t * p) ((i - a) % p)
          (Nat.mod_lt _ hp)⟩
        rw [htdef, Nat.div_lt_iff_lt_mul hp]
        omega
      · have := div_mul_add_mod (i - a) p
        rw [htdef, Nat.add_assoc]
        omega
    · refine ⟨(a + (sh.size - a) / p * p + (i - (a + (sh.size - a) / p * p)),
               srcLin sh src (a + (sh.size - a) / p * p + (i - (a + (sh.size - a) / p * p)))),
              ?_, by omega⟩
      refine List.mem_append.mpr (Or.inr ?_)
      simp only [List.mem_map, List.mem_range]
      exact ⟨i - (a + (sh.size - a) / p * p), by omega, rfl⟩

lemma sliceAlignedStart_le (sh : Shape) (p a : Nat) (h : a ≤ sh.innerSize) :
    ∀ o, sliceAlignedStart sh p a o ≤ sh.innerSize
  | 0 => h
  | o + 1 => Nat.min_le_right _ _

lemma sliceWrites_normalized {α : Type} (sh : Shape) (src : Nat → Nat → α)
    {p : Nat} (aS outer : Nat) (hp : 0 < p)
    (hland : Nat.land (sh.innerSize - aS) (p - 1) = (sh.innerSize - aS) % p) :
    sliceWrites sh src p aS outer
      = ((List.range aS).map fun inner => coeffWriteOI sh src outer inner)
        ++ ((List.range ((sh.innerSize - aS) / p)).flatMap fun t =>
              packetWritesOI sh src p outer (aS + t * p))
        ++ ((List.range (sh.innerSize - (aS + (sh.innerSize - aS) / p * p))).map fun k =>
              coeffWriteOI sh src outer (aS + (sh.innerSize - aS) / p * p + k)) := by
  have hmod := Nat.div_add_mod (sh.innerSize - aS) p
  have hcomm : p * ((sh.innerSize - aS) / p) = (sh.innerSize - aS) / p * p :=
    Nat.mul_comm _ _
  have hsub : sh.innerSize - aS - (sh.innerSize - aS) % p
      = (sh.innerSize - aS) / p * p := by omega
  have hcount : (aS + (sh.innerSize - aS) / p * p - aS + p - 1) / p
      = (sh.innerSize - aS) / p := by
    rw [Nat.add_sub_cancel_left,
      ceil_div_eq_of_dvd hp (dvd_mul_left p _), Nat.mul_div_cancel _ hp]
  rw [sliceWrites, hland, hsub, hcount]

lemma sliceWrites_sound {α : Type} (sh : Shape) (src : Nat → Nat → α)
    {p : Nat} (hp : 0 < p)
    (hland : ∀ x, Nat.land x (p - 1) = x % p)
    {aS outer : Nat} (haS : aS ≤ sh.innerSize) (ho : outer < sh.outerSize)
    {pr : Nat × α} (hpr : pr ∈ sliceWrites sh src p aS outer) :
    pr.1 < sh.size ∧ pr.2 = srcLin sh src pr.1 := by
  rw [sliceWrites_normalized sh src aS outer hp (hland _)] at hpr
  have hmod := Nat.div_add_mod (sh.innerSize - aS) p
  rcases List.mem_append.mp hpr with h | h
  · rcases List.mem_append.mp h with h1 | h2
    · simp only [List.mem_map, List.mem_range] at h1
      obtain ⟨inner, hi, rfl⟩ := h1
      have hin : inner < sh.innerSize := by omega
      rw [coeffWriteOI_eq sh src outer hin]
      exact ⟨OI_lt_size sh ho hin, rfl⟩
    · simp only [List.mem_flatMap, List.mem_range] at h2
      obtain ⟨t, ht, hmem⟩ := h2
      obtain ⟨k, hk, rfl⟩ := packetWritesOI_elem sh src p _ _ hmem
      have h4 : (t + 1) * p = t * p + p := Nat.succ_mul t p
      have h2 : (t + 1) * p ≤ (sh.innerSize - aS) / p * p :=
        Nat.mul_le_mul_right p (by omega)
      have h3 : (sh.innerSize - aS) / p * p ≤ sh.innerSize - aS :=
        Nat.div_mul_le_self _ p
      have hin : aS + t * p + k < sh.innerSize := by omega
      have := OI_lt_size sh ho hin
      refine ⟨?_, rfl⟩
      omega
  · simp only [List.mem_map, List.mem_range] at h
    obtain ⟨k, hk, rfl⟩ := h
    have hin : aS + (sh.innerSize - aS) / p * p + k < sh.innerSize := by omega
    rw [coeffWriteOI_eq sh src outer hin]
    exact ⟨OI_lt_size sh ho hin, rfl⟩

lemma sliceWrites_cover {α : Type} (sh : Shape) (src : Nat → Nat → α)
    {p : Nat} (hp : 0 < p)
    (hland : ∀ x, Nat.land x (p - 1) = x % p)
    (aS outer : Nat) (haS : aS ≤ sh.innerSize)
    (inner : Nat) (hin : inner < sh.innerSize) :
    ∃ pr ∈ sliceWrites sh src p aS outer,
      pr.1 = outer * sh.innerSize + inner := by
  rw [sliceWrites_normalized sh src aS outer hp (hland _)]
  by_cases h1 : inner < aS
  · refine ⟨coeffWriteOI sh src outer inner, ?_, ?_⟩
    · refine List.mem_append.mpr (Or.inl (List.mem_append.mpr (Or.inl ?_)))
      simp only [List.mem_map, List.mem_range]
      exact ⟨inner, h1, rfl⟩
    · rw [coeffWriteOI_eq sh src outer hin]
  · by_cases h2 : inner < aS + (sh.innerSize - aS) / p * p
    · set t := (inner - aS) / p with htdef
      refine ⟨(outer * sh.innerSize + (aS + t * p) + (inner - aS) % p,
               srcLin sh src (outer * sh.innerSize + (aS + t * p) + (inner - aS) % p)),
              ?_, ?_⟩
      · refine List.mem_append.mpr (Or.inl (List.mem_append.mpr (Or.inr ?_)))
        simp only [List.mem_flatMap, List.mem_range]
        refine ⟨t, ?_, packetWritesOI_mem sh src p outer (aS + t * p)
          ((inner - aS) % p) (Nat.mod_lt _ hp)⟩
        rw [htdef, Nat.div_lt_iff_lt_mul hp]
        omega
      · have := div_mul_add_mod (inner - aS) p
        rw [htdef]
        omega
    · refine ⟨coeffWriteOI sh src outer (aS + (sh.innerSize - aS) / p * p
          + (inner - (aS + (sh.innerSize - aS) / p * p))), ?_, ?_⟩
      · refine List.mem_append.mpr (Or.inr ?_)
        simp only [List.mem_map, List.mem_range]
        exact ⟨inner - (aS + (sh.innerSize - aS) / p * p), by omega, rfl⟩
      · rw [show aS + (sh.innerSize - aS) / p * p
            + (inner - (aS + (sh.innerSize - aS) / p * p)) = inner by omega]
        rw [coeffWriteOI_eq sh src outer hin]

/-- Every executor, run under its instantiation conditions, produces exactly
the element-for-element copy of the source into the destination extent and
leaves the rest of the buffer untouched. -/
lemma copy_using_evaluator_run_eq {α : Type} (s : Strategy) (sh : Shape)
    (src : Nat → Nat → α) (p a : Nat) (buf : Nat → α)
    (h : strategyPrecond s sh p a) :
    copy_using_evaluator_run s sh src p a buf = copiedBuf sh src buf := by
  cases s with
  | defaultNoUnroll =>
      exact applyWrites_copies sh src buf _
        (fun pr hpr => writesDefaultLoop_sound sh src hpr)
        (fun i hi => writesDefaultLoop_cover sh src hi)
  | defaultInnerUnroll =>
      exact applyWrites_copies sh src buf _
        (fun pr hpr => writesDefaultLoop_sound sh src hpr)
        (fun i hi => writesDefaultLoop_cover sh src hi)
  | defaultComplete =>
      exact applyWrites_copies sh src buf _
        (fun pr hpr => writesDefaultComplete_sound sh src hpr)
        (fun i hi => writesDefaultComplete_cover sh src hi)
  | linearNoUnroll =>
      exact applyWrites_copies sh src buf _
        (fun pr hpr => writesLinear_sound sh src hpr)
        (fun i hi => writesLinear_cover sh src hi)
  | linearComplete =>
      exact applyWrites_copies sh src buf _
        (fun pr hpr => writesLinear_sound sh src hpr)
        (fun i hi => writesLinear_cover sh src hi)
  | innerVecNoUnroll =>
      obtain ⟨hp, hdvd⟩ := h
      have hceil : (sh.innerSize + p - 1) / p = sh.innerSize / p :=
        ceil_div_eq_of_dvd hp hdvd
      exact applyWrites_copies sh src buf _
        (fun pr hpr => writesInnerVecLoop_sound sh src hp hdvd (le_of_eq hceil) hpr)
        (fun i hi => writesInnerVecLoop_cover sh src hp hdvd (le_of_eq hceil.symm) hi)
  | innerVecInnerUnroll =>
      obtain ⟨hp, hdvd⟩ := h
      exact applyWrites_copies sh src buf _
        (fun pr hpr => writesInnerVecLoop_sound sh src hp hdvd (le_refl _) hpr)
        (fun i hi => writesInnerVecLoop_cover sh src hp hdvd (le_refl _) hi)
  | innerVecComplete =>
      obtain ⟨hp, hdvd⟩ := h
      have hdvdsz : p ∣ sh.size := by
        rw [← sh.outer_mul_inner]
        exact Dvd.dvd.mul_left hdvd sh.outerSize
      have hfull : sh.size / p * p = sh.size := Nat.div_mul_cancel hdvdsz
      exact applyWrites_copies sh src buf _
        (fun pr hpr => writesInnerVecComplete_sound sh src hp hpr)
        (fun i hi => writesInnerVecComplete_cover sh src hp (by rw [hfull]; exact hi))
  | linearVecNoUnroll =>
      obtain ⟨hp, ha⟩ := h
      exact applyWrites_copies sh src buf _
        (fun pr hpr => writesLinearVecNoUnroll_sound sh src hp ha hpr)
        (fun i hi => writesLinearVecNoUnroll_cover sh src hp hi)
  | linearVecComplete =>
      have hp : 0 < p := h
      have hstart : sh.size / p * p ≤ sh.size := Nat.div_mul_le_self _ _
      refine applyWrites_copies sh src buf _ ?_ ?_
      · intro pr hpr
        rcases List.mem_append.mp hpr with h1 | h2
        · exact writesInnerVecComplete_sound sh src hp h1
        · exact writesDefaultUnrolled_sound sh src (sh.size / p * p)
            (sh.size - sh.size / p * p) (by omega) h2
      · intro i hi
        by_cases hcase : i < sh.size / p * p
        · obtain ⟨pr, hmem, hfst⟩ := writesInnerVecComplete_cover sh src hp hcase
          exact ⟨pr, List.mem_append.mpr (Or.inl hmem), hfst⟩
        · obtain ⟨pr, hmem, hfst⟩ :=
            writesDefaultUnrolled_cover sh src (sh.size / p * p)
              (sh.size - sh.size / p * p) i (by omega) (by omega)
              (Nat.lt_of_le_of_lt (Nat.zero_le i) hi)
          exact ⟨pr, List.mem_append.mpr (Or.inr hmem), hfst⟩
  | sliceVecNoUnroll =>
      obtain ⟨⟨k, rfl⟩, ha⟩ := h
      have hp : 0 < 2 ^ k := Nat.pos_pow_of_pos k (by omega)
      have hland : ∀ x, Nat.land x (2 ^ k - 1) = x % 2 ^ k :=
        fun x => land_two_pow_sub_one x k
      refine applyWrites_copies sh src buf _ ?_ ?_
      · intro pr hpr
        simp only [strategyWrites, List.mem_flatMap, List.mem_range] at hpr
        obtain ⟨outer, ho, hmem⟩ := hpr
        exact sliceWrites_sound sh src hp hland
          (sliceAlignedStart_le sh (2 ^ k) a ha outer) ho hmem
      · intro i hi
        have hsz : 0 < sh.size := Nat.lt_of_le_of_lt (Nat.zero_le i) hi
        have his := sh.innerSize_pos hsz
        have hoOS : i / sh.innerSize < sh.outerSize := by
          rw [Nat.div_lt_iff_lt_mul his, sh.outer_mul_inner]
          exact hi
        obtain ⟨pr, hmem, hfst⟩ := sliceWrites_cover sh src hp hland
          (sliceAlignedStart sh (2 ^ k) a (i / sh.innerSize)) (i / sh.innerSize)
          (sliceAlignedStart_le sh (2 ^ k) a ha (i / sh.innerSize))
          (i % sh.innerSize) (Nat.mod_lt i his)
        refine ⟨pr, ?_, ?_⟩
        · simp only [strategyWrites, List.mem_flatMap, List.mem_range]
          exact ⟨i / sh.innerSize, hoOS, hmem⟩
        · rw [hfst, div_mul_add_mod]

/-! The matrix-product expression (src/Eigen/src/Core/Product.h). -/

/-- `ei_product_unroller<Index, Size>::run` for a positive static `Size`
(Product.h lines 29-48): the recursion adds
`lhs.coeff(row, Index) * rhs.coeff(Index, col)` on top of the recursive call
for `Index - 1`; `Index = 0` initialises the result with
`lhs.coeff(row, 0) * rhs.coeff(0, col)`. -/
def ei_product_unroller_run {α : Type} [Mul α] [Add α]
    (lhs rhs : Nat → Nat → α) (row col : Nat) : Nat → α
  | 0 => lhs row 0 * rhs 0 col
  | idx + 1 =>
      ei_product_unroller_run lhs rhs row col idx
        + lhs row (idx + 1) * rhs (idx + 1) col

/-- `CoeffReadCost` of `ei_traits<Product>` (Product.h lines 105-111):
`Dynamic` when the static inner dimension is dynamic, else
`n * (MulCost + LhsCoeffReadCost + RhsCoeffReadCost) + (n-1) * AddCost`. -/
def product_coeff_read_cost (lhsColsCT : CompileTimeSize)
    (mulCost addCost lhsCost rhsCost : Nat) : CompileTimeSize :=
  match lhsColsCT with
  | none => none
  | some n => some (n * (mulCost + lhsCost + rhsCost) + (n - 1) * addCost)

/-- `Product::_coeff(row, col)` (Product.h lines 140-158).  The local flag is
`const bool unroll = CoeffReadCost <= EIGEN_UNROLLING_LIMIT`, an `int`
comparison in which the `Dynamic` sentinel equals -10 (Util.h line 117) and
therefore passes the test.  When it passes, the meta-unroller is
instantiated with `Size = Lhs::ColsAtCompileTime`; the `Size = Dynamic`
(lines 50-54) and `Size = 0` (lines 56-61) specializations are no-ops that
never write `res`, so the uninitialised result is modelled as `none`.
Otherwise the scalar accumulation loop over the runtime inner dimension
`m_lhs.cols()` runs, seeded with the `i = 0` term. -/
def Product_coeff {α : Type} [Mul α] [Add α]
    (lhsColsCT coeffReadCost : CompileTimeSize)
    (lhs rhs : Nat → Nat → α) (cols row col : Nat) : Option α :=
  let costInt : Int :=
    match coeffReadCost with
    | none => -10
    | some c => c
  if costInt ≤ (EIGEN_UNROLLING_LIMIT : Int) then
    match lhsColsCT with
    | none => none
    | some 0 => none
    | some (m + 1) => some (ei_product_unroller_run lhs rhs row col m)
  else
    some ((List.range' 1 (cols - 1)).foldl
      (fun res i => res + lhs row i * rhs i col) (lhs row 0 * rhs 0 col))

lemma ei_product_unroller_run_eq {α : Type} [CommRing α]
    (lhs rhs : Nat → Nat → α) (row col : Nat) (m : Nat) :
    ei_product_unroller_run lhs rhs row col m
      = ∑ k ∈ Finset.range (m + 1), lhs row k * rhs k col := by
  induction m with
  | zero => simp [ei_product_unroller_run]
  | succ m ih =>
      rw [ei_product_unroller_run, ih]
      exact (Finset.sum_range_succ _ (m + 1)).symm

lemma foldl_add_eq {α : Type} [AddCommMonoid α] (f : Nat → α) (l : List Nat)
    (v : α) :
    l.foldl (fun acc i => acc + f i) v = v + (l.map f).sum := by
  induction l generalizing v with
  | nil => simp
  | cons hd tl ih => rw [List.foldl_cons, ih, List.map_cons, List.sum_cons, add_assoc]

lemma range'_map_sum {α : Type} [AddCommMonoid α] (f : Nat → α) (s : Nat) :
    ∀ m, ((List.range' s m).map f).sum = ∑ j ∈ Finset.Ico s (s + m), f j := by
  intro m
  induction m with
  | zero => simp
  | succ m ih =>
      rw [List.range'_concat, List.map_append, List.sum_append, ih]
      simp only [List.map_cons, List.map_nil, List.sum_cons, List.sum_nil, add_zero]
      rw [show s + (m + 1) = (s + m) + 1 by omega,
        Finset.sum_Ico_succ_top (by omega), one_mul]

lemma range_map_sum {α : Type} [AddCommMonoid α] (f : Nat → α) (m : Nat) :
    ((List.range m).map f).sum = ∑ j ∈ Finset.range m, f j := by
  rw [List.range_eq_range', range'_map_sum, Nat.zero_add, ← Finset.range_eq_Ico]

lemma product_loop_eq {α : Type} [CommRing α] (lhs rhs : Nat → Nat → α)
    (row col n : Nat) (hn : 0 < n) :
    (List.range' 1 (n - 1)).foldl (fun res i => res + lhs row i * rhs i col)
        (lhs row 0 * rhs 0 col)
      = ∑ k ∈ Finset.range n, lhs row k * rhs k col := by
  rw [foldl_add_eq, range'_map_sum, show 1 + (n - 1) = n from by omega,
    Finset.range_eq_Ico, Finset.sum_eq_sum_Ico_succ_bot hn]

/-- Both branches of `Product::_coeff` compute the inner-product sum when the
static inner dimension is known (so that the unroller has a real `Size`) and
positive, whatever the advertised non-Dynamic read cost selects. -/
lemma Product_coeff_eq_sum {α : Type} [CommRing α] (lhs rhs : Nat → Nat → α)
    (n row col : Nat) (cost : Nat) (hn : 0 < n) :
    Product_coeff (some n) (some cost) lhs rhs n row col
      = some (∑ k ∈ Finset.range n, lhs row k * rhs k col) := by
  obtain ⟨m, rfl⟩ : ∃ m, n = m + 1 := ⟨n - 1, by omega⟩
  rw [Product_coeff]
  by_cases hc : ((cost : Int) ≤ (EIGEN_UNROLLING_LIMIT : Int))
  · simp only [hc, if_true, ei_product_unroller_run_eq]
  · simp only [hc, if_false]
    rw [product_loop_eq lhs rhs row col (m + 1) hn]

/-- At a dynamic inner dimension the `unroll` test passes (Dynamic = -10)
and the Dynamic unroller specialization leaves the result unwritten. -/
lemma Product_coeff_dynamic_none {α : Type} [CommRing α]
    (lhs rhs : Nat → Nat → α) (cols row col : Nat) :
    Product_coeff (none : CompileTimeSize) (none : CompileTimeSize)
      lhs rhs cols row col = (none : Option α) := rfl

/-- Pointwise update of a two-index accumulator
(`res.coeffRef(i, k) += ...` writes back through the reference). -/
def upd2 {α : Type} (f : Nat → Nat → α) (i k : Nat) (v : α) : Nat → Nat → α :=
  fun i2 k2 => if i2 = i ∧ k2 = k then v else f i2 k2

/-- `Product::_cacheOptimalEval(res)` (Product.h lines 200-226): after
`res.setZero()`, for each destination column `k` the executor walks the
inner dimension in blocks of 4 columns of the left operand
(`cols4 = m_lhs.cols() & 0xfffffffC`, which for the non-negative 32-bit
`int` counts involved rounds the inner dimension down to a multiple of 4),
loading `tmp0..tmp3` from the right operand once per block and accumulating
partial sums directly into `res(i, k)` for every row `i`; the remaining
columns `j` past `cols4` are processed one at a time. -/
def Product_cacheOptimalEval {α : Type} [Mul α] [Add α] [Zero α]
    (lhs rhs : Nat → Nat → α) (lhsRows lhsCols rhsCols : Nat) :
    Nat → Nat → α :=
  let cols4 := 4 * (lhsCols / 4)
  (List.range rhsCols).foldl (fun res k =>
    let res2 := (List.range (cols4 / 4)).foldl (fun res jq =>
      let j := 4 * jq
      let tmp0 := rhs j k
      let tmp1 := rhs (j + 1) k
      let tmp2 := rhs (j + 2) k
      let tmp3 := rhs (j + 3) k
      (List.range lhsRows).foldl (fun res i =>
        upd2 res i k (res i k
          + (tmp0 * lhs i j + tmp1 * lhs i (j + 1)
             + tmp2 * lhs i (j + 2) + tmp3 * lhs i (j + 3)))) res) res
    (List.range' cols4 (lhsCols - cols4)).foldl (fun res j =>
      let tmp := rhs j k
      (List.range lhsRows).foldl (fun res i =>
        upd2 res i k (res i k + tmp * lhs i j)) res) res2)
    (fun _ _ => 0)

lemma inner_row_fold {α : Type} [AddCommMonoid α] (k n : Nat) (δ : Nat → α)
    (res : Nat → Nat → α) :
    (List.range n).foldl (fun res i => upd2 res i k (res i k + δ i)) res
      = fun i2 k2 => if k2 = k ∧ i2 < n then res i2 k2 + δ i2 else res i2 k2 := by
  induction n with
  | zero => funext i2 k2; simp
  | succ n ih =>
      rw [List.range_succ, List.foldl_append, ih]
      funext i2 k2
      simp only [List.foldl_cons, List.foldl_nil, upd2]
      by_cases h1 : i2 = n ∧ k2 = k
      · obtain ⟨rfl, rfl⟩ := h1
        simp [lt_irrefl]
      · simp only [h1, if_false]
        by_cases h2 : k2 = k ∧ i2 < n + 1
        · have h3 : k2 = k ∧ i2 < n := by
            constructor
            · exact h2.1
            · rcases Nat.lt_succ_iff_lt_or_eq.mp h2.2 with h | h
              · exact h
              · exact absurd ⟨h, h2.1⟩ h1
          simp [h2, h3]
        · have h3 : ¬(k2 = k ∧ i2 < n) := fun h =>
            h2 ⟨h.1, Nat.lt_succ_of_lt h.2⟩
          simp [h2, h3]

lemma col_fold {α : Type} [AddCommMonoid α] (k n : Nat) (Δ : Nat → Nat → α)
    (L : List Nat) (res : Nat → Nat → α) :
    L.foldl (fun res j =>
        (List.range n).foldl (fun res i => upd2 res i k (res i k + Δ j i)) res) res
      = fun i2 k2 => if k2 = k ∧ i2 < n
          then res i2 k2 + (L.map fun j => Δ j i2).sum else res i2 k2 := by
  induction L generalizing res with
  | nil => funext i2 k2; by_cases h : k2 = k ∧ i2 < n <;> simp [h]
  | cons j L ih =>
      rw [List.foldl_cons, inner_row_fold, ih]
      funext i2 k2
      by_cases h : k2 = k ∧ i2 < n <;> simp [h, add_assoc]

lemma sum_range_four_mul {α : Type} [AddCommMonoid α] (f : Nat → α) (m : Nat) :
    ∑ j ∈ Finset.range (4 * m), f j
      = ∑ jq ∈ Finset.range m,
          (f (4 * jq) + f (4 * jq + 1) + f (4 * jq + 2) + f (4 * jq + 3)) := by
  induction m with
  | zero => simp
  | succ m ih =>
      rw [show 4 * (m + 1) = 4 * m + 4 from by ring, Finset.sum_range_add, ih,
        Finset.sum_range_succ]
      simp [Finset.sum_range_succ, add_assoc]

lemma cacheOptimal_column {α : Type} [CommRing α] (lhs rhs : Nat → Nat → α)
    (rows cols k : Nat) (res : Nat → Nat → α) :
    ((List.range' (4 * (cols / 4)) (cols - 4 * (cols / 4))).foldl (fun res j =>
        (List.range rows).foldl (fun res i =>
          upd2 res i k (res i k + rhs j k * lhs i j)) res)
      ((List.range (4 * (cols / 4) / 4)).foldl (fun res jq =>
        (List.range rows).foldl (fun res i =>
          upd2 res i k (res i k
            + (rhs (4 * jq) k * lhs i (4 * jq)
               + rhs (4 * jq + 1) k * lhs i (4 * jq + 1)
               + rhs (4 * jq + 2) k * lhs i (4 * jq + 2)
               + rhs (4 * jq + 3) k * lhs i (4 * jq + 3)))) res) res))
      = fun i2 k2 => if k2 = k ∧ i2 < rows
          then res i2 k2 + ∑ j ∈ Finset.range cols, rhs j k2 * lhs i2 j
          else res i2 k2 := by
  rw [col_fold, col_fold]
  funext i2 k2
  by_cases h : k2 = k ∧ i2 < rows
  · obtain ⟨rfl, hrow⟩ := h
    simp only [hrow, and_true, if_pos rfl, if_true, true_and]
    rw [add_assoc, range_map_sum, range'_map_sum,
      Nat.mul_div_cancel_left (cols / 4) (by norm_num)]
    congr 1
    have hle : 4 * (cols / 4) ≤ cols := Nat.mul_div_le cols 4
    rw [← sum_range_four_mul (fun j => rhs j k2 * lhs i2 j) (cols / 4),
      show 4 * (cols / 4) + (cols - 4 * (cols / 4)) = cols from by omega,
      Finset.range_eq_Ico,
      Finset.sum_Ico_consecutive _ (Nat.zero_le _) hle]
  · simp only [h, if_false]

lemma cacheOptimal_cols_fold {α : Type} [CommRing α] (lhs rhs : Nat → Nat → α)
    (rows cols : Nat) : ∀ m : Nat,
    (List.range m).foldl (fun res k =>
        (List.range' (4 * (cols / 4)) (cols - 4 * (cols / 4))).foldl (fun res j =>
          (List.range rows).foldl (fun res i =>
            upd2 res i k (res i k + rhs j k * lhs i j)) res)
        ((List.range (4 * (cols / 4) / 4)).foldl (fun res jq =>
          (List.range rows).foldl (fun res i =>
            upd2 res i k (res i k
              + (rhs (4 * jq) k * lhs i (4 * jq)
                 + rhs (4 * jq + 1) k * lhs i (4 * jq + 1)
                 + rhs (4 * jq + 2) k * lhs i (4 * jq + 2)
                 + rhs (4 * jq + 3) k * lhs i (4 * jq + 3)))) res) res))
      (fun _ _ => 0)
      = fun i2 k2 => if k2 < m ∧ i2 < rows
          then ∑ j ∈ Finset.range cols, rhs j k2 * lhs i2 j else 0 := by
  intro m
  induction m with
  | zero => funext i2 k2; simp
  | succ m ih =>
      rw [List.range_succ, List.foldl_append, ih, List.foldl_cons, List.foldl_nil,
        cacheOptimal_column]
      funext i2 k2
      by_cases h1 : k2 = m ∧ i2 < rows
      · obtain ⟨rfl, hrow⟩ := h1
        simp [hrow, lt_irrefl]
      · simp only [h1, if_false]
        by_cases h2 : k2 < m + 1 ∧ i2 < rows
        · have h3 : k2 < m ∧ i2 < rows := by
            refine ⟨?_, h2.2⟩
            rcases Nat.lt_succ_iff_lt_or_eq.mp h2.1 with h | h
            · exact h
            · exact absurd ⟨h, h2.2⟩ h1
          simp [h2, h3]
        · have h3 : ¬(k2 < m ∧ i2 < rows) := fun h =>
            h2 ⟨Nat.lt_succ_of_lt h.1, h.2⟩
          simp [h2, h3]

/-- The cache-blocked product executor fills every destination cell with the
inner-product value of the generic coefficient definition. -/
lemma Product_cacheOptimalEval_entry {α : Type} [CommRing α]
    (lhs rhs : Nat → Nat → α) (rows cols rcols i k : Nat)
    (hi : i < rows) (hk : k < rcols) :
    Product_cacheOptimalEval lhs rhs rows cols rcols i k
      = ∑ j ∈ Finset.range cols, rhs j k * lhs i j := by
  have hunfold : Product_cacheOptimalEval lhs rhs rows cols rcols
      = (List.range rcols).foldl (fun res k =>
          (List.range' (4 * (cols / 4)) (cols - 4 * (cols / 4))).foldl (fun res j =>
            (List.range rows).foldl (fun res i =>
              upd2 res i k (res i k + rhs j k * lhs i j)) res)
          ((List.range (4 * (cols / 4) / 4)).foldl (fun res jq =>
            (List.range rows).foldl (fun res i =>
              upd2 res i k (res i k
                + (rhs (4 * jq) k * lhs i (4 * jq)
                   + rhs (4 * jq + 1) k * lhs i (4 * jq + 1)
                   + rhs (4 * jq + 2) k * lhs i (4 * jq + 2)
                   + rhs (4 * jq + 3) k * lhs i (4 * jq + 3)))) res) res))
        (fun _ _ => 0) := rfl
  rw [hunfold, cacheOptimal_cols_fold]
  simp [hk, hi]

lemma bufList_copiedBuf {α : Type} (sh : Shape) (src : Nat → Nat → α)
    (buf : Nat → α) :
    bufList sh (copiedBuf sh src buf) = (List.range sh.size).map (srcLin sh src) := by
  unfold bufList copiedBuf
  exact List.map_congr_left fun i hi => if_pos (List.mem_range.mp hi)

/-! Concrete data for the specification's scenarios. -/

/-- The 2x3 left operand `[[1,2,3],[4,5,6]]` of concrete scenario 3. -/
def exampleLhs : Nat → Nat → Int := fun r c =>
  (([[1, 2, 3], [4, 5, 6]] : List (List Int)).getD r []).getD c 0

/-- The 3x2 right operand `[[7,8],[9,10],[11,12]]` of concrete scenario 3. -/
def exampleRhs : Nat → Nat → Int := fun r c =>
  (([[7, 8], [9, 10], [11, 12]] : List (List Int)).getD r []).getD c 0

/-- The 2x2 column-major destination shape of the concrete product. -/
def exampleProductShape : Shape := { rows := 2, cols := 2, isRowMajor := false }

/-- The product node's coefficient accessor at the concrete operands (static
inner dimension 3, unit scalar costs: `CoeffReadCost = 11`). -/
def exampleProductCoeff : Nat → Nat → Int := fun r c =>
  (Product_coeff (some 3) (product_coeff_read_cost (some 3) 1 1 1 1)
    exampleLhs exampleRhs 3 r c).getD 0

/-- The four product coefficients in row-major reading order. -/
def exampleProductEntries : List Int :=
  [exampleProductCoeff 0 0, exampleProductCoeff 0 1,
   exampleProductCoeff 1 0, exampleProductCoeff 1 1]

/-- The 4-element column vector `[1,2,3,4]` of concrete scenario 2. -/
def vec1234 : MatExpr Int :=
  { rows := 4, cols := 1,
    coeff := fun r _ => ([1, 2, 3, 4] : List Int).getD r 0 }

/-! The claim theorems. -/

/-- C1: for every destination/source pair and every (traversal, unrolling)
strategy combination forced on that pair, running the corresponding
`copy_using_evaluator_impl` executor leaves the destination with exactly the
same element values as the Default-traversal/No-unrolling baseline executor
(the executors move scalar values without arithmetic, so the equality is
exact). -/
theorem C1_executor_equivalence {α : Type} (s : Strategy) (sh : Shape)
    (src : Nat → Nat → α) (p a : Nat) (buf buf0 : Nat → α)
    (hpre : strategyPrecond s sh p a) :
    bufList sh (copy_using_evaluator_run s sh src p a buf)
      = bufList sh (copy_using_evaluator_run .defaultNoUnroll sh src p a buf0) := by
  rw [copy_using_evaluator_run_eq s sh src p a buf hpre,
    copy_using_evaluator_run_eq .defaultNoUnroll sh src p a buf0 trivial,
    bufList_copiedBuf, bufList_copiedBuf]

/-- Witness for C1: the SliceVectorized executor on a column-major 4x2
destination with packet size 2 and runtime aligned start 1 matches the
baseline executor started from a different initial buffer. -/
theorem C1_executor_equivalence_witness :
    bufList { rows := 4, cols := 2, isRowMajor := false }
        (copy_using_evaluator_run .sliceVecNoUnroll
          { rows := 4, cols := 2, isRowMajor := false }
          (fun r c => r + 10 * c) 2 1 (fun _ => 0))
      = bufList { rows := 4, cols := 2, isRowMajor := false }
        (copy_using_evaluator_run .defaultNoUnroll
          { rows := 4, cols := 2, isRowMajor := false }
          (fun r c => r + 10 * c) 2 1 (fun _ => 99)) :=
  C1_executor_equivalence .sliceVecNoUnroll
    { rows := 4, cols := 2, isRowMajor := false }
    (fun r c => r + 10 * c) 2 1 (fun _ => 0) (fun _ => 99)
    ⟨⟨1, rfl⟩, by decide⟩

/-- C2: the classifier selects the traversal kind by the exact priority
order of the specification: InnerVectorized, else LinearVectorized, else
SliceVectorized, else Linear, else Default, with the stated conditions. -/
theorem C2_traversal_selection (packetSize : Nat) (dst src : XprDesc) :
    copy_using_evaluator_traits.Traversal_choice packetSize dst src
      = spec_traversal packetSize dst src :=
  copy_using_evaluator_traits.traversal_eq_spec packetSize dst src

/-- C3: the classifier's unrolling choice is determined by the selected
traversal with the limit `16 * packetSize` when vectorized, as the
specification states. -/
theorem C3_unrolling_selection (packetSize : Nat) (dst src : XprDesc) :
    copy_using_evaluator_traits.Unrolling_choice packetSize dst src
      = spec_unrolling packetSize dst src :=
  copy_using_evaluator_traits.unrolling_eq_spec packetSize dst src

/-- C4: for a statically-sized product node the generic coefficient accessor
returns the inner-product sum, and the concrete 2x3 by 3x2 product equals
`[[58,64],[139,154]]` both at the accessor and through every assignment
executor the classifier may select; at a dynamically-sized inner dimension,
however, the accessor's `unroll` test accepts the `Dynamic` cost sentinel
(-10 <= 16) and dispatches to the no-op `Dynamic` unroller, leaving the
result unwritten (`none`) instead of degrading to the scalar loop. -/
theorem C4_product_coefficient {α : Type} [CommRing α]
    (lhs rhs : Nat → Nat → α) (n row col cost : Nat) (hn : 0 < n)
    (s : Strategy) (p a : Nat) (buf : Nat → Int)
    (hpre : strategyPrecond s exampleProductShape p a) :
    Product_coeff (some n) (some cost) lhs rhs n row col
        = some (∑ k ∈ Finset.range n, lhs row k * rhs k col)
    ∧ Product_coeff none none lhs rhs n row col = (none : Option α)
    ∧ exampleProductEntries = [58, 64, 139, 154]
    ∧ bufList exampleProductShape
        (copy_using_evaluator_run s exampleProductShape exampleProductCoeff p a buf)
      = [58, 139, 64, 154] := by
  refine ⟨Product_coeff_eq_sum lhs rhs n row col cost hn, rfl, by decide, ?_⟩
  rw [copy_using_evaluator_run_eq s exampleProductShape exampleProductCoeff p a buf hpre,
    bufList_copiedBuf]
  decide

/-- Witness for C4: the Linear/NoUnrolling executor at the concrete product
(the sum conjunct is instantiated at the (0,0) coefficient of the concrete
operands with the actual read cost 11). -/
theorem C4_product_coefficient_witness :
    Product_coeff (some 3) (some 11) exampleLhs exampleRhs 3 0 0
        = some (∑ k ∈ Finset.range 3, exampleLhs 0 k * exampleRhs k 0)
    ∧ Product_coeff none none exampleLhs exampleRhs 3 0 0 = (none : Option Int)
    ∧ exampleProductEntries = [58, 64, 139, 154]
    ∧ bufList exampleProductShape
        (copy_using_evaluator_run .linearNoUnroll exampleProductShape
          exampleProductCoeff 1 0 (fun _ => 0))
      = [58, 139, 64, 154] :=
  C4_product_coefficient exampleLhs exampleRhs 3 0 0 11 (by decide)
    .linearNoUnroll 1 0 (fun _ => 0) trivial

/-- C5: the cache-blocked executor `_cacheOptimalEval`, which streams over
blocks of 4 columns of the left operand accumulating partial sums directly
into the destination, fills every cell (i,k) with the generic coefficient
definition `sum over j of left(i,j)*right(j,k)`; with a positive inner
dimension this equals what the per-coefficient path computes. -/
theorem C5_cache_blocked_product {α : Type} [CommRing α]
    (lhs rhs : Nat → Nat → α) (rows cols rcols i k cost : Nat)
    (hi : i < rows) (hk : k < rcols) (hcols : 0 < cols) :
    Product_cacheOptimalEval lhs rhs rows cols rcols i k
        = ∑ j ∈ Finset.range cols, lhs i j * rhs j k
    ∧ Product_coeff (some cols) (some cost) lhs rhs cols i k
        = some (Product_cacheOptimalEval lhs rhs rows cols rcols i k) := by
  have hmain : Product_cacheOptimalEval lhs rhs rows cols rcols i k
      = ∑ j ∈ Finset.range cols, lhs i j * rhs j k := by
    rw [Product_cacheOptimalEval_entry lhs rhs rows cols rcols i k hi hk]
    exact Finset.sum_congr rfl fun j _ => mul_comm _ _
  refine ⟨hmain, ?_⟩
  rw [hmain]
  exact Product_coeff_eq_sum lhs rhs cols i k cost hcols

/-- Witness for C5: the blocked executor on the concrete 2x3 by 3x2 product
agrees with the coefficient sum at cell (1,0). -/
theorem C5_cache_blocked_product_witness :
    Product_cacheOptimalEval exampleLhs exampleRhs 2 3 2 1 0
        = ∑ j ∈ Finset.range 3, exampleLhs 1 j * exampleRhs j 0
    ∧ Product_coeff (some 3) (some 11) exampleLhs exampleRhs 3 1 0
        = some (Product_cacheOptimalEval exampleLhs exampleRhs 2 3 2 1 0) :=
  C5_cache_blocked_product exampleLhs exampleRhs 2 3 2 1 0 11
    (by decide) (by decide) (by decide)

/-- C6: evaluating the 1-D parallel decomposition at the specification's own
scenario (size 17, 4 workers) shows the code dropping the remainder: with
`blockSize = 17 / 4 = 4` every worker gets exactly 4 elements, the block
sizes sum to 16 (not 17) and index 16 belongs to no block, so the blocks do
not partition `[0,17)`. -/
theorem C6_parallel_1d_gap :
    ((ei_run_parallel_1d_blocks 17 4).map Block1d.blockSize).sum = 16
    ∧ (ei_run_parallel_1d_blocks 17 4).length = 4
    ∧ ((ei_run_parallel_1d_blocks 17 4).all fun b => !(b.contains 16)) = true := by
  decide

/-- C7: bidirectional reversal is an involution on every valid coefficient,
and the concrete 4-element vector `[1,2,3,4]` reverses to `[4,3,2,1]` and
back to `[1,2,3,4]`. -/
theorem C7_reverse_involution {α : Type} (m : MatExpr α) (r c : Nat)
    (hr : r < m.rows) (hc : c < m.cols) :
    (reverseXpr .BothDirections (reverseXpr .BothDirections m)).coeff r c
        = m.coeff r c
    ∧ ((List.range 4).map fun i =>
        (reverseXpr .BothDirections vec1234).coeff i 0) = [4, 3, 2, 1]
    ∧ ((List.range 4).map fun i =>
        (reverseXpr .BothDirections
          (reverseXpr .BothDirections vec1234)).coeff i 0) = [1, 2, 3, 4] := by
  refine ⟨?_, by decide, by decide⟩
  simp only [reverseXpr, ReverseRow, ReverseCol]
  norm_num
  congr 1 <;> omega

/-- Witness for C7: the involution instantiated at entry (2,0) of the
concrete vector. -/
theorem C7_reverse_involution_witness :
    (reverseXpr .BothDirections (reverseXpr .BothDirections vec1234)).coeff 2 0
        = vec1234.coeff 2 0
    ∧ ((List.range 4).map fun i =>
        (reverseXpr .BothDirections vec1234).coeff i 0) = [4, 3, 2, 1]
    ∧ ((List.range 4).map fun i =>
        (reverseXpr .BothDirections
          (reverseXpr .BothDirections vec1234)).coeff i 0) = [1, 2, 3, 4] :=
  C7_reverse_involution vec1234 2 0 (by decide) (by decide)

/-- C8 counterexample: a child advertising packet access but not linear
access, reversed bidirectionally, does NOT claim the linear-access bit —
refuting the claim that the derived node claims linear access if and only if
the reversal is bidirectional and the child advertises packet access. -/
theorem C8_reverse_flags_counterexample :
    (reverseTraitsFlags .BothDirections packetOnlyFlags).linearAccessBit = false
    ∧ packetOnlyFlags.packetAccessBit = true := by
  decide

/-- C8 (amended): a Reverse expression claims the linear-access capability
if and only if the reversal is bidirectional AND its child advertises packet
access AND its child advertises linear access; in every other case the
linear-access bit is dropped, and every capability the node does claim
(hereditary bits, packet access, linear access) is drawn from the child's
flags. -/
theorem C8_reverse_flags_amended (dir : ReverseDirection) (child : XprFlags) :
    ((reverseTraitsFlags dir child).linearAccessBit = true
        ↔ (dir = .BothDirections ∧ child.packetAccessBit = true
            ∧ child.linearAccessBit = true))
    ∧ ((reverseTraitsFlags dir child).packetAccessBit = true
        → child.packetAccessBit = true)
    ∧ ((reverseTraitsFlags dir child).linearAccessBit = true
        → child.linearAccessBit = true)
    ∧ (reverseTraitsFlags dir child).rowMajorBit = child.rowMajorBit
    ∧ (reverseTraitsFlags dir child).evalBeforeNestingBit = child.evalBeforeNestingBit
    ∧ (reverseTraitsFlags dir child).evalBeforeAssigningBit = child.evalBeforeAssigningBit
    ∧ (reverseTraitsFlags dir child).largeBit = child.largeBit := by
  cases hp : child.packetAccessBit <;> cases hl : child.linearAccessBit <;>
    cases dir <;> simp [reverseTraitsFlags, hp, hl]

/-- Witness for C8 (amended): at a bidirectional reversal of a child with
packet and linear access, the node claims linear access. -/
theorem C8_reverse_flags_amended_witness :
    ((reverseTraitsFlags .BothDirections
        { packetOnlyFlags with linearAccessBit := true }).linearAccessBit = true
      ↔ (ReverseDirection.BothDirections = .BothDirections
          ∧ ({ packetOnlyFlags with linearAccessBit := true } : XprFlags).packetAccessBit = true
          ∧ ({ packetOnlyFlags with linearAccessBit := true } : XprFlags).linearAccessBit = true)) :=
  (C8_reverse_flags_amended .BothDirections
    { packetOnlyFlags with linearAccessBit := true }).1

/-- C9: constructing a `Sum` node fails the constructor's assertion exactly
when the operands' row counts or column counts differ; when the shapes
match, construction succeeds with the operands' shape and the pointwise-sum
coefficient — no silent broadcasting. -/
theorem C9_sum_shape_assert {α : Type} [Add α] (lhs rhs : MatExpr α) :
    (Sum_construct lhs rhs = none
        ↔ (lhs.rows ≠ rhs.rows ∨ lhs.cols ≠ rhs.cols))
    ∧ (lhs.rows = rhs.rows → lhs.cols = rhs.cols →
        Sum_construct lhs rhs
          = some { rows := lhs.rows, cols := lhs.cols,
                   coeff := fun r c => lhs.coeff r c + rhs.coeff r c }) := by
  constructor
  · unfold Sum_construct
    by_cases h : lhs.rows = rhs.rows ∧ lhs.cols = rhs.cols <;> simp [h] <;> tauto
  · intro h1 h2
    unfold Sum_construct
    rw [if_pos ⟨h1, h2⟩]

/-- Witness for C9: two 2x2 operands construct successfully with the
matching shape and summed coefficients. -/
theorem C9_sum_shape_assert_witness :
    Sum_construct { rows := 2, cols := 2, coeff := fun r c => (r + c : Int) }
        { rows := 2, cols := 2, coeff := fun r c => (r * c : Int) }
      = some { rows := 2, cols := 2,
               coeff := fun r c => ((r + c : Int) + (r * c : Int)) } :=
  (C9_sum_shape_assert
    { rows := 2, cols := 2, coeff := fun r c => (r + c : Int) }
    { rows := 2, cols := 2, coeff := fun r c => (r * c : Int) }).2 rfl rfl

/-- C10: for every worker count from 1 to 16, the 2-D decomposition tables
multiply back to the worker count, so the nested block loops emit exactly
one `ranges` column per worker. -/
theorem C10_divide_tables (t size1 size2 : Nat) (h1 : 1 ≤ t) (h2 : t ≤ 16) :
    divide1.getD t 0 * divide2.getD t 0 = t
    ∧ (ei_run_parallel_2d_ranges size1 size2 t).length = t := by
  have hprod : divide1.getD t 0 * divide2.getD t 0 = t := by
    interval_cases t <;> rfl
  exact ⟨hprod, by rw [ei_run_parallel_2d_ranges_length, hprod]⟩

/-- Witness for C10: 4 workers on a 17 x 9 domain give 4 blocks. -/
theorem C10_divide_tables_witness :
    divide1.getD 4 0 * divide2.getD 4 0 = 4
    ∧ (ei_run_parallel_2d_ranges 17 9 4).length = 4 :=
  C10_divide_tables 4 17 9 (by decide) (by decide)

end Eigen
